import Mathlib

/-!
Shallow embedding of the card-shuffling / poker-hand evaluator of
`Chapter5_Pointers_And_Strings/excercise_12.cpp`, together with proofs of the
specification claims about it.

Conventions of the embedding:
* C `int` arrays indexed by `int` become total functions `Nat → Int`
  (count tables) or `Nat → Nat` (the deck and the per-card hand arrays; the
  program only ever stores the non-negative values `0..52` there).
* The 4×13 deck becomes a curried function `Nat → Nat → Nat`; the code only
  ever reads or writes indices `p < 4`, `q < 13`.
* The C library random source `rand()` becomes an arbitrary stream
  `src : Nat → Nat` of draws, consumed in the order the C code calls `rand()`.
* Loops become folds over the index lists the C loops enumerate; in-place
  mutation becomes `Function.update` on the embedded arrays.
-/

/-- Source function `rankValueFromFaceIndex`: face index 0 is the Ace (rank 14),
face indices `1..12` map to ranks `2..13`. -/
def rankValueFromFaceIndex (faceIdx : Nat) : Nat :=
  if faceIdx = 0 then 14 else faceIdx + 1

/-- The rank indices `2..14` scanned by the evaluation loops
(`for (int r = 2; r <= 14; r++)`). -/
def rankIndices : List Nat := (List.range 13).map (fun i => i + 2)

/-- Source function `countRanksWithFrequency`: how many ranks `r ∈ 2..14` appear
exactly `N` times in the rank count table. -/
def countRanksWithFrequency (rankCount : Nat → Int) (N : Int) : Nat :=
  rankIndices.countP (fun r => rankCount r == N)

/-- Source function `isFlush`: some suit `s ∈ 0..3` has `suitCount[s] == 5`. -/
def isFlush (suitCount : Nat → Int) : Bool :=
  (List.range 4).any (fun s => suitCount s == 5)

/-- The run scan of `isStraight`: walk the rank indices carrying `runLength`,
returning `true` as soon as five consecutive ranks have count exactly 1. -/
def straightRunScan (rankCount : Nat → Int) : List Nat → Nat → Bool
  | [], _ => false
  | r :: rs, runLength =>
    if rankCount r == 1 then
      if runLength + 1 == 5 then true else straightRunScan rankCount rs (runLength + 1)
    else
      straightRunScan rankCount rs 0

/-- Source function `isStraight`: require exactly five ranks of count 1, then
special-case the wheel A-2-3-4-5, then scan for a run of five consecutive
count-1 ranks. -/
def isStraight (rankCount : Nat → Int) : Bool :=
  if countRanksWithFrequency rankCount 1 ≠ 5 then
    false
  else if rankCount 14 == 1 && rankCount 2 == 1 && rankCount 3 == 1 &&
          rankCount 4 == 1 && rankCount 5 == 1 then
    true
  else
    straightRunScan rankCount rankIndices 0

/-- Source function `isOnePair`. -/
def isOnePair (rankCount : Nat → Int) : Bool :=
  countRanksWithFrequency rankCount 2 == 1

/-- Source function `isTwoPair`. -/
def isTwoPair (rankCount : Nat → Int) : Bool :=
  countRanksWithFrequency rankCount 2 == 2

/-- Source function `isThreeOfAKind` (excludes the full-house case). -/
def isThreeOfAKind (rankCount : Nat → Int) : Bool :=
  countRanksWithFrequency rankCount 3 == 1 && countRanksWithFrequency rankCount 2 == 0

/-- Source function `isFourOfAKind`. -/
def isFourOfAKind (rankCount : Nat → Int) : Bool :=
  countRanksWithFrequency rankCount 4 == 1

/-- Source function `isFullHouse`. -/
def isFullHouse (rankCount : Nat → Int) : Bool :=
  countRanksWithFrequency rankCount 3 == 1 && countRanksWithFrequency rankCount 2 == 1

/-- Source function `handleHand`: the first-match-wins category ladder returning
the priority `1..9` (lower is stronger). -/
def handleHand (rankCount : Nat → Int) (suitCount : Nat → Int) : Nat :=
  if isStraight rankCount && isFlush suitCount then 1
  else if isFourOfAKind rankCount then 2
  else if isFullHouse rankCount then 3
  else if isFlush suitCount then 4
  else if isStraight rankCount then 5
  else if isThreeOfAKind rankCount then 6
  else if isTwoPair rankCount then 7
  else if isOnePair rankCount then 8
  else 9

/-- The `(p, q)` pairs enumerated by the nested deck-scanning loops
(`for p in 0..3, for q in 0..12`), in loop order. -/
def deckPairs : List (Nat × Nat) :=
  (List.range 4).flatMap (fun p => (List.range 13).map (fun q => (p, q)))

/-- The four output arrays of `dealFiveCardHandFromOrderRange`, embedded as
total functions (the C arrays are views of these at indices `0..4`, `0..14`
and `0..3`). -/
structure DealState where
  outHandSuite : Nat → Nat
  outHandRank : Nat → Nat
  outRankCount : Nat → Int
  outSuitCount : Nat → Int

/-- The body of the innermost match in `dealFiveCardHandFromOrderRange`:
record suit `p` and the derived rank of face `q` at position `dealIdx`, and
bump both frequency counts. -/
def writeCard (st : DealState) (dealIdx p q : Nat) : DealState :=
  let rank := rankValueFromFaceIndex q
  { outHandSuite := Function.update st.outHandSuite dealIdx p
    outHandRank := Function.update st.outHandRank dealIdx rank
    outRankCount := Function.update st.outRankCount rank (st.outRankCount rank + 1)
    outSuitCount := Function.update st.outSuitCount p (st.outSuitCount p + 1) }

/-- One iteration of the outer deal loop: scan the whole 4×13 deck and write
the card data of every slot whose stored order number is `orderWanted`. -/
def dealCardStep (deck : Nat → Nat → Nat) (orderWanted dealIdx : Nat)
    (st : DealState) : DealState :=
  deckPairs.foldl
    (fun st pq => if deck pq.1 pq.2 == orderWanted then writeCard st dealIdx pq.1 pq.2 else st)
    st

/-- Source function `dealFiveCardHandFromOrderRange` (printing elided): for each
`dealIdx ∈ 0..4` scan the deck for the card with order `startOrder + dealIdx`. -/
def dealFiveCardHandFromOrderRange (deck : Nat → Nat → Nat) (startOrder : Nat)
    (st : DealState) : DealState :=
  (List.range 5).foldl (fun st dealIdx => dealCardStep deck (startOrder + dealIdx) dealIdx st) st

/-- Source function `clearCountArrays`: zero the 15 rank-count slots and the 4
suit-count slots. -/
def clearCountArrays (rankCount suitCount : Nat → Int) : (Nat → Int) × (Nat → Int) :=
  ((List.range 15).foldl (fun f i => Function.update f i 0) rankCount,
   (List.range 4).foldl (fun f i => Function.update f i 0) suitCount)

/-- The row draw of iteration `j` of the rejection-sampling loop:
`row = rand() % 4`, where iteration `j` consumes the stream values at
positions `2*j` and `2*j + 1`. -/
def drawRow (src : Nat → Nat) (j : Nat) : Nat := src (2 * j) % 4

/-- The column draw of iteration `j` of the rejection-sampling loop:
`col = rand() % 13`. -/
def drawCol (src : Nat → Nat) (j : Nat) : Nat := src (2 * j + 1) % 13

/-- Write `v` into slot `(r, c)` of the deck. -/
def updateDeck (deck : Nat → Nat → Nat) (r c v : Nat) : Nat → Nat → Nat :=
  fun p q => if p = r ∧ q = c then v else deck p q

/-- Some slot of the 4×13 grid is still empty (holds 0). -/
def HasEmptySlot (deck : Nat → Nat → Nat) : Prop :=
  ∃ p, p < 4 ∧ ∃ q, q < 13 ∧ deck p q = 0

instance (deck : Nat → Nat → Nat) : Decidable (HasEmptySlot deck) := by
  unfold HasEmptySlot; infer_instance

/-- A fair random source: from any point on, every `(row, col)` pair of the
grid is eventually drawn. -/
def FairSource (src : Nat → Nat) : Prop :=
  ∀ k r c, r < 4 → c < 13 → ∃ j, k ≤ j ∧ drawRow src j = r ∧ drawCol src j = c

/-- A fair source eventually draws an empty slot, so the do-while loop of
`shuffleDeck` has an exit point at or after any draw position `j0`. -/
theorem exists_empty_draw (src : Nat → Nat) (hsrc : FairSource src)
    (deck : Nat → Nat → Nat) (j0 : Nat) (hemp : HasEmptySlot deck) :
    ∃ j, j0 ≤ j ∧ deck (drawRow src j) (drawCol src j) = 0 := by
  obtain ⟨p, hp, q, hq, hpq⟩ := hemp
  obtain ⟨j, hj, hr, hc⟩ := hsrc j0 p q hp hq
  exact ⟨j, hj, by rw [hr, hc]; exact hpq⟩

/-- The placement loop of `shuffleDeck` (`for i in 1..52`), starting at order
number `i` with the next unread stream position `2*j0`.  Each iteration runs
the do-while rejection loop: the first draw `j ≥ j0` hitting an empty slot is
taken (`Nat.find`), the slot receives `i`, and the stream position advances
past that draw.  The C do-while diverges if the deck has no empty slot; the
embedding returns the flag `true` in that (unreachable) case. -/
def shuffleGo (src : Nat → Nat) (hsrc : FairSource src) (i : Nat)
    (deck : Nat → Nat → Nat) (j0 : Nat) : (Nat → Nat → Nat) × Bool :=
  if h52 : i ≤ 52 then
    if hemp : HasEmptySlot deck then
      let j := Nat.find (exists_empty_draw src hsrc deck j0 hemp)
      shuffleGo src hsrc (i + 1) (updateDeck deck (drawRow src j) (drawCol src j) i) (j + 1)
    else
      (deck, true)
  else
    (deck, false)
termination_by 53 - i

/-- Source function `shuffleDeck`: clear the 4×13 grid to 0, then place the
order numbers `1..52` by rejection sampling from the random stream `src`.
The second component records whether a do-while loop failed to exit
(it never does; see the termination theorem). -/
def shuffleDeck (src : Nat → Nat) (hsrc : FairSource src)
    (deck : Nat → Nat → Nat) : (Nat → Nat → Nat) × Bool :=
  shuffleGo src hsrc 1 (fun p q => if p < 4 ∧ q < 13 then 0 else deck p q) 0

/-- The sum of the rank-count table over the used indices `2..14`. -/
def rankSum (rankCount : Nat → Int) : Int :=
  (rankIndices.map rankCount).sum

/-- The sum of the suit-count table over the used indices `0..3`. -/
def suitSum (suitCount : Nat → Int) : Int :=
  ((List.range 4).map suitCount).sum

/-- The number of still-empty slots of the 4×13 grid. -/
def countEmpty (deck : Nat → Nat → Nat) : Nat :=
  deckPairs.countP (fun pq => deck pq.1 pq.2 == 0)

theorem mem_deckPairs {pq : Nat × Nat} : pq ∈ deckPairs ↔ pq.1 < 4 ∧ pq.2 < 13 := by
  cases pq with
  | mk p q =>
    simp only [deckPairs, List.mem_flatMap, List.mem_map, List.mem_range]
    constructor
    · rintro ⟨p', hp', q', hq', h⟩
      cases h; exact ⟨hp', hq'⟩
    · rintro ⟨hp, hq⟩
      exact ⟨p, hp, q, hq, rfl⟩

theorem deckPairs_nodup : deckPairs.Nodup := by decide

theorem mem_rankIndices {r : Nat} : r ∈ rankIndices ↔ 2 ≤ r ∧ r ≤ 14 := by
  simp only [rankIndices, List.mem_map, List.mem_range]
  constructor
  · rintro ⟨i, hi, rfl⟩; omega
  · rintro ⟨h2, h14⟩; exact ⟨r - 2, by omega, by omega⟩

theorem rankIndices_nodup : rankIndices.Nodup := by decide

theorem rankValue_range {q : Nat} (hq : q < 13) :
    2 ≤ rankValueFromFaceIndex q ∧ rankValueFromFaceIndex q ≤ 14 := by
  unfold rankValueFromFaceIndex; split <;> omega

/-- Folding a guarded step function is folding the unguarded one over the
filtered list. -/
theorem foldl_guard {α σ : Type} (P : α → Bool) (g : σ → α → σ) :
    ∀ (l : List α) (s : σ),
      l.foldl (fun s a => if P a then g s a else s) s = (l.filter P).foldl g s := by
  intro l
  induction l with
  | nil => intro s; rfl
  | cons a l ih =>
    intro s
    by_cases h : P a = true
    · simp [List.filter_cons, h, ih]
    · simp [List.filter_cons, h, ih]

/-- On a duplicate-free list, a predicate holding at `a` and nowhere else
filters down to the singleton `[a]`. -/
theorem filter_eq_singleton {α : Type} [DecidableEq α] (P : α → Bool) :
    ∀ (l : List α), l.Nodup → ∀ a ∈ l, P a = true →
      (∀ b ∈ l, P b = true → b = a) → l.filter P = [a] := by
  intro l
  induction l with
  | nil => intro _ a ha; cases ha
  | cons x l ih =>
    intro hnd a ha hPa huniq
    rw [List.nodup_cons] at hnd
    rcases List.mem_cons.mp ha with rfl | hal
    · have hl : l.filter P = [] := by
        rw [List.filter_eq_nil_iff]
        intro b hb
        intro hPb
        have hba := huniq b (List.mem_cons_of_mem _ hb) hPb
        rw [hba] at hb
        exact hnd.1 hb
      simp [List.filter_cons, hPa, hl]
    · have hx : P x = false := by
        cases hPx : P x
        · rfl
        · exact absurd (huniq x (List.mem_cons_self _ _) hPx) (fun h => hnd.1 (h ▸ hal))
      rw [List.filter_cons_of_neg (by simp [hx])]
      exact ih hnd.2 a hal hPa (fun b hb => huniq b (List.mem_cons_of_mem _ hb))

/-- Updating one entry of a table shifts the sum over a duplicate-free index
list containing that entry by the difference. -/
theorem sum_map_update (f : Nat → Int) (r : Nat) (v : Int) :
    ∀ (l : List Nat), l.Nodup → r ∈ l →
      (l.map (Function.update f r v)).sum = (l.map f).sum + (v - f r) := by
  intro l
  induction l with
  | nil => intro _ h; cases h
  | cons a l ih =>
    intro hnd hr
    rw [List.nodup_cons] at hnd
    rcases List.mem_cons.mp hr with rfl | hrl
    · have htail : l.map (Function.update f r v) = l.map f := by
        apply List.map_congr_left
        intro x hx
        exact Function.update_noteq (by rintro rfl; exact hnd.1 hx) _ _
      simp [htail, Function.update_same]
      ring
    · have ha : Function.update f r v a = f a :=
        Function.update_noteq (by rintro rfl; exact hnd.1 hrl) _ _
      simp [ha, ih hnd.2 hrl]
      ring

/-- Updating one entry of a table to a value leaves the map over an index
list untouched when the index is absent from the list. -/
theorem map_update_of_not_mem (f : Nat → Int) (r : Nat) (v : Int)
    (l : List Nat) (hr : r ∉ l) :
    l.map (Function.update f r v) = l.map f := by
  apply List.map_congr_left
  intro x hx
  exact Function.update_noteq (by rintro rfl; exact hr hx) _ _

/-- On a duplicate-free list, a predicate holding at `a` and nowhere else has
count exactly one. -/
theorem countP_eq_one {α : Type} [DecidableEq α] (P : α → Bool)
    (l : List α) (hnd : l.Nodup) (a : α) (ha : a ∈ l) (hPa : P a = true)
    (huniq : ∀ b ∈ l, P b = true → b = a) : l.countP P = 1 := by
  rw [List.countP_eq_length_filter, filter_eq_singleton P l hnd a ha hPa huniq]
  rfl

/-- Spec data model of a deck: every slot of the 4×13 grid holds an order
value in `1..52`, and every order value in `1..52` sits in exactly one slot of
the grid. -/
def DeckBijection (deck : Nat → Nat → Nat) : Prop :=
  (∀ p q, p < 4 → q < 13 → 1 ≤ deck p q ∧ deck p q ≤ 52) ∧
  (∀ v, 1 ≤ v → v ≤ 52 → deckPairs.countP (fun pq => deck pq.1 pq.2 == v) = 1)

instance (deck : Nat → Nat → Nat) : Decidable (DeckBijection deck) := by
  have h : ((∀ p, p < 4 → ∀ q, q < 13 → 1 ≤ deck p q ∧ deck p q ≤ 52) ∧
       (∀ v, v < 53 → 1 ≤ v →
         deckPairs.countP (fun pq => deck pq.1 pq.2 == v) = 1)) ↔ DeckBijection deck := by
    constructor
    · rintro ⟨h1, h2⟩
      exact ⟨fun p q hp hq => h1 p hp q hq, fun v h1v h52 => h2 v (by omega) h1v⟩
    · rintro ⟨h1, h2⟩
      exact ⟨fun p hp q hq => h1 p q hp hq, fun v hv h1v => h2 v h1v (by omega)⟩
  exact decidable_of_iff _ h

/-- On a list, a predicate of count one holds at a unique member. -/
theorem countP_one_elim {α : Type} (P : α → Bool) (l : List α)
    (h : l.countP P = 1) :
    ∃ a, a ∈ l ∧ P a = true ∧ ∀ b ∈ l, P b = true → b = a := by
  rw [List.countP_eq_length_filter] at h
  obtain ⟨a, ha⟩ := List.length_eq_one.mp h
  refine ⟨a, ?_, ?_, ?_⟩
  · have : a ∈ l.filter P := by rw [ha]; exact List.mem_singleton_self a
    exact (List.mem_filter.mp this).1
  · have : a ∈ l.filter P := by rw [ha]; exact List.mem_singleton_self a
    exact (List.mem_filter.mp this).2
  · intro b hb hPb
    have : b ∈ l.filter P := List.mem_filter.mpr ⟨hb, hPb⟩
    rw [ha] at this
    exact List.mem_singleton.mp this

/-- A bijective deck assigns each order value `1..52` a unique slot. -/
theorem deckBijection_slot (deck : Nat → Nat → Nat) (hbij : DeckBijection deck)
    (v : Nat) (h1 : 1 ≤ v) (h52 : v ≤ 52) :
    ∃ p q, p < 4 ∧ q < 13 ∧ deck p q = v ∧
      ∀ p' q', p' < 4 → q' < 13 → deck p' q' = v → p' = p ∧ q' = q := by
  obtain ⟨a, hmem, hPa, huniq⟩ :=
    countP_one_elim (fun pq : Nat × Nat => deck pq.1 pq.2 == v) deckPairs (hbij.2 v h1 h52)
  obtain ⟨ha1, ha2⟩ := mem_deckPairs.mp hmem
  refine ⟨a.1, a.2, ha1, ha2, by simpa using hPa, ?_⟩
  intro p' q' hp' hq' hv
  have := huniq (p', q') (mem_deckPairs.mpr ⟨hp', hq'⟩) (by simpa using hv)
  constructor
  · exact congrArg Prod.fst this
  · exact congrArg Prod.snd this

/-- The deck scan of one deal iteration writes exactly one card when the
wanted order number sits in exactly one slot. -/
theorem dealCardStep_eq_writeCard (deck : Nat → Nat → Nat) (v dealIdx : Nat)
    (p q : Nat) (hp : p < 4) (hq : q < 13) (hpq : deck p q = v)
    (huniq : ∀ p' q', p' < 4 → q' < 13 → deck p' q' = v → p' = p ∧ q' = q) :
    ∀ st : DealState, dealCardStep deck v dealIdx st = writeCard st dealIdx p q := by
  intro st
  have h1 := foldl_guard (fun pq : Nat × Nat => deck pq.1 pq.2 == v)
      (fun st pq => writeCard st dealIdx pq.1 pq.2) deckPairs st
  have h2 : deckPairs.filter (fun pq : Nat × Nat => deck pq.1 pq.2 == v) = [(p, q)] := by
    apply filter_eq_singleton _ deckPairs deckPairs_nodup (p, q)
        (mem_deckPairs.mpr ⟨hp, hq⟩) (by simp [hpq])
    intro b hb hPb
    obtain ⟨hb1, hb2⟩ := mem_deckPairs.mp hb
    have hv : deck b.1 b.2 = v := by simpa using hPb
    obtain ⟨e1, e2⟩ := huniq b.1 b.2 hb1 hb2 hv
    cases b
    simp only at e1 e2
    rw [e1, e2]
  calc dealCardStep deck v dealIdx st
      = (deckPairs.filter (fun pq : Nat × Nat => deck pq.1 pq.2 == v)).foldl
          (fun st pq => writeCard st dealIdx pq.1 pq.2) st := h1
    _ = writeCard st dealIdx p q := by rw [h2]; rfl

/-- The deck scan of one deal iteration writes nothing when the wanted order
number sits in no slot. -/
theorem dealCardStep_eq_self (deck : Nat → Nat → Nat) (v dealIdx : Nat)
    (hnone : ∀ p q, p < 4 → q < 13 → deck p q ≠ v) :
    ∀ st : DealState, dealCardStep deck v dealIdx st = st := by
  intro st
  have h1 := foldl_guard (fun pq : Nat × Nat => deck pq.1 pq.2 == v)
      (fun st pq => writeCard st dealIdx pq.1 pq.2) deckPairs st
  have h2 : deckPairs.filter (fun pq : Nat × Nat => deck pq.1 pq.2 == v) = [] := by
    rw [List.filter_eq_nil_iff]
    intro pq hpq
    obtain ⟨h1', h2'⟩ := mem_deckPairs.mp hpq
    simp only [beq_iff_eq]
    exact hnone pq.1 pq.2 h1' h2'
  calc dealCardStep deck v dealIdx st
      = (deckPairs.filter (fun pq : Nat × Nat => deck pq.1 pq.2 == v)).foldl
          (fun st pq => writeCard st dealIdx pq.1 pq.2) st := h1
    _ = st := by rw [h2]; rfl

/-- A left fold of zero-writes over an index list zeroes exactly the listed
indices. -/
theorem foldl_update_zero (l : List Nat) : ∀ (f : Nat → Int) (j : Nat),
    (l.foldl (fun f i => Function.update f i 0) f) j = if j ∈ l then 0 else f j := by
  induction l with
  | nil => intro f j; simp
  | cons a l ih =>
    intro f j
    rw [List.foldl_cons, ih]
    by_cases hj : j ∈ l
    · simp [hj]
    · by_cases hja : j = a
      · subst hja
        simp [hj, Function.update_same]
      · simp [hj, hja, Function.update_noteq hja]

/-- The cleared rank-count table is zero on all 15 slots. -/
theorem clearCountArrays_rank (rankCount suitCount : Nat → Int) (j : Nat) (hj : j < 15) :
    (clearCountArrays rankCount suitCount).1 j = 0 := by
  show (List.foldl (fun f i => Function.update f i 0) rankCount (List.range 15)) j = 0
  rw [foldl_update_zero]
  simp [List.mem_range, hj]

/-- The cleared suit-count table is zero on all 4 slots. -/
theorem clearCountArrays_suit (rankCount suitCount : Nat → Int) (j : Nat) (hj : j < 4) :
    (clearCountArrays rankCount suitCount).2 j = 0 := by
  show (List.foldl (fun f i => Function.update f i 0) suitCount (List.range 4)) j = 0
  rw [foldl_update_zero]
  simp [List.mem_range, hj]

/-- Writing one card adds exactly one to the rank-count total over `2..14`
and one to the suit-count total over `0..3`. -/
theorem writeCard_sums (st : DealState) (dealIdx p q : Nat) (hp : p < 4) (hq : q < 13) :
    rankSum (writeCard st dealIdx p q).outRankCount = rankSum st.outRankCount + 1 ∧
    suitSum (writeCard st dealIdx p q).outSuitCount = suitSum st.outSuitCount + 1 := by
  constructor
  · show rankSum (Function.update st.outRankCount (rankValueFromFaceIndex q)
      (st.outRankCount (rankValueFromFaceIndex q) + 1)) = rankSum st.outRankCount + 1
    unfold rankSum
    rw [sum_map_update _ _ _ rankIndices rankIndices_nodup
        (mem_rankIndices.mpr (rankValue_range hq))]
    ring
  · show suitSum (Function.update st.outSuitCount p (st.outSuitCount p + 1)) =
      suitSum st.outSuitCount + 1
    unfold suitSum
    rw [sum_map_update _ _ _ (List.range 4) (List.nodup_range 4) (List.mem_range.mpr hp)]
    ring

/-- Scanning the deck for an order value present in the grid adds exactly one
to each frequency-table total. -/
theorem dealCardStep_sums (deck : Nat → Nat → Nat) (hbij : DeckBijection deck)
    (v : Nat) (h1 : 1 ≤ v) (h52 : v ≤ 52) (dealIdx : Nat) (st : DealState) :
    rankSum (dealCardStep deck v dealIdx st).outRankCount = rankSum st.outRankCount + 1 ∧
    suitSum (dealCardStep deck v dealIdx st).outSuitCount = suitSum st.outSuitCount + 1 := by
  obtain ⟨p, q, hp, hq, hv, huniq⟩ := deckBijection_slot deck hbij v h1 h52
  rw [dealCardStep_eq_writeCard deck v dealIdx p q hp hq hv huniq st]
  exact writeCard_sums st dealIdx p q hp hq

/-- Dealing five cards from a bijective deck adds exactly five to each
frequency-table total. -/
theorem deal_sums (deck : Nat → Nat → Nat) (hbij : DeckBijection deck)
    (S : Nat) (hS1 : 1 ≤ S) (hS48 : S ≤ 48) (st : DealState) :
    rankSum (dealFiveCardHandFromOrderRange deck S st).outRankCount =
      rankSum st.outRankCount + 5 ∧
    suitSum (dealFiveCardHandFromOrderRange deck S st).outSuitCount =
      suitSum st.outSuitCount + 5 := by
  have hr : List.range 5 = [0, 1, 2, 3, 4] := rfl
  unfold dealFiveCardHandFromOrderRange
  rw [hr]
  simp only [List.foldl_cons, List.foldl_nil]
  have s0 := dealCardStep_sums deck hbij (S + 0) (by omega) (by omega) 0 st
  have s1 := dealCardStep_sums deck hbij (S + 1) (by omega) (by omega) 1
    (dealCardStep deck (S + 0) 0 st)
  have s2 := dealCardStep_sums deck hbij (S + 2) (by omega) (by omega) 2
    (dealCardStep deck (S + 1) 1 (dealCardStep deck (S + 0) 0 st))
  have s3 := dealCardStep_sums deck hbij (S + 3) (by omega) (by omega) 3
    (dealCardStep deck (S + 2) 2 (dealCardStep deck (S + 1) 1 (dealCardStep deck (S + 0) 0 st)))
  have s4 := dealCardStep_sums deck hbij (S + 4) (by omega) (by omega) 4
    (dealCardStep deck (S + 3) 3 (dealCardStep deck (S + 2) 2
      (dealCardStep deck (S + 1) 1 (dealCardStep deck (S + 0) 0 st))))
  constructor
  · rw [s4.1, s3.1, s2.1, s1.1, s0.1]; ring
  · rw [s4.2, s3.2, s2.2, s1.2, s0.2]; ring

/-- Totals of the cleared count tables are zero. -/
theorem cleared_sums (rankCount suitCount : Nat → Int) :
    rankSum (clearCountArrays rankCount suitCount).1 = 0 ∧
    suitSum (clearCountArrays rankCount suitCount).2 = 0 := by
  constructor
  · unfold rankSum
    apply List.sum_eq_zero
    intro x hx
    obtain ⟨r, hr, rfl⟩ := List.mem_map.mp hx
    exact clearCountArrays_rank _ _ r (by have := mem_rankIndices.mp hr; omega)
  · unfold suitSum
    apply List.sum_eq_zero
    intro x hx
    obtain ⟨s, hs, rfl⟩ := List.mem_map.mp hx
    exact clearCountArrays_suit _ _ s (List.mem_range.mp hs)

/-- The deck scan never touches hand-array entries other than the one of the
card currently being dealt. -/
theorem foldl_hand_frame (deck : Nat → Nat → Nat) (v dealIdx i : Nat) (hi : i ≠ dealIdx) :
    ∀ (l : List (Nat × Nat)) (st : DealState),
      (l.foldl (fun st pq =>
          if deck pq.1 pq.2 == v then writeCard st dealIdx pq.1 pq.2 else st) st).outHandSuite i =
        st.outHandSuite i ∧
      (l.foldl (fun st pq =>
          if deck pq.1 pq.2 == v then writeCard st dealIdx pq.1 pq.2 else st) st).outHandRank i =
        st.outHandRank i := by
  intro l
  induction l with
  | nil => intro st; exact ⟨rfl, rfl⟩
  | cons a l ih =>
    intro st
    rw [List.foldl_cons]
    by_cases h : (deck a.1 a.2 == v) = true
    · rw [if_pos h]
      obtain ⟨ih1, ih2⟩ := ih (writeCard st dealIdx a.1 a.2)
      rw [ih1, ih2]
      exact ⟨Function.update_noteq hi _ _, Function.update_noteq hi _ _⟩
    · rw [if_neg h]
      exact ih st

/-- Statement of `foldl_hand_frame` for one whole deal iteration. -/
theorem dealCardStep_hand_frame (deck : Nat → Nat → Nat) (v dealIdx i : Nat)
    (hi : i ≠ dealIdx) (st : DealState) :
    (dealCardStep deck v dealIdx st).outHandSuite i = st.outHandSuite i ∧
    (dealCardStep deck v dealIdx st).outHandRank i = st.outHandRank i :=
  foldl_hand_frame deck v dealIdx i hi deckPairs st

/-- The deck scan only ever touches rank-count indices `2..14` and suit-count
indices `0..3`. -/
theorem foldl_count_frame (deck : Nat → Nat → Nat) (v dealIdx t s : Nat)
    (ht : t < 2 ∨ 14 < t) (hs : 3 < s) :
    ∀ (l : List (Nat × Nat)), (∀ pq ∈ l, pq.1 < 4 ∧ pq.2 < 13) → ∀ (st : DealState),
      (l.foldl (fun st pq =>
          if deck pq.1 pq.2 == v then writeCard st dealIdx pq.1 pq.2 else st) st).outRankCount t =
        st.outRankCount t ∧
      (l.foldl (fun st pq =>
          if deck pq.1 pq.2 == v then writeCard st dealIdx pq.1 pq.2 else st) st).outSuitCount s =
        st.outSuitCount s := by
  intro l
  induction l with
  | nil => intro _ st; exact ⟨rfl, rfl⟩
  | cons a l ih =>
    intro hb st
    have ha := hb a (List.mem_cons_self _ _)
    have hrank := rankValue_range ha.2
    rw [List.foldl_cons]
    by_cases h : (deck a.1 a.2 == v) = true
    · rw [if_pos h]
      obtain ⟨ih1, ih2⟩ := ih (fun pq hpq => hb pq (List.mem_cons_of_mem _ hpq))
        (writeCard st dealIdx a.1 a.2)
      rw [ih1, ih2]
      constructor
      · exact Function.update_noteq (by omega) _ _
      · exact Function.update_noteq (by omega) _ _
    · rw [if_neg h]
      exact ih (fun pq hpq => hb pq (List.mem_cons_of_mem _ hpq)) st

/-- Statement of `foldl_count_frame` for one whole deal iteration. -/
theorem dealCardStep_count_frame (deck : Nat → Nat → Nat) (v dealIdx t s : Nat)
    (ht : t < 2 ∨ 14 < t) (hs : 3 < s) (st : DealState) :
    (dealCardStep deck v dealIdx st).outRankCount t = st.outRankCount t ∧
    (dealCardStep deck v dealIdx st).outSuitCount s = st.outSuitCount s :=
  foldl_count_frame deck v dealIdx t s ht hs deckPairs
    (fun _ hpq => mem_deckPairs.mp hpq) st

/-- A full five-card deal only ever touches rank-count indices `2..14` and
suit-count indices `0..3`. -/
theorem deal_count_frame (deck : Nat → Nat → Nat) (S t s : Nat)
    (ht : t < 2 ∨ 14 < t) (hs : 3 < s) (st : DealState) :
    (dealFiveCardHandFromOrderRange deck S st).outRankCount t = st.outRankCount t ∧
    (dealFiveCardHandFromOrderRange deck S st).outSuitCount s = st.outSuitCount s := by
  have hr : List.range 5 = [0, 1, 2, 3, 4] := rfl
  unfold dealFiveCardHandFromOrderRange
  rw [hr]
  simp only [List.foldl_cons, List.foldl_nil]
  have f0 := dealCardStep_count_frame deck (S + 0) 0 t s ht hs st
  have f1 := dealCardStep_count_frame deck (S + 1) 1 t s ht hs
    (dealCardStep deck (S + 0) 0 st)
  have f2 := dealCardStep_count_frame deck (S + 2) 2 t s ht hs
    (dealCardStep deck (S + 1) 1 (dealCardStep deck (S + 0) 0 st))
  have f3 := dealCardStep_count_frame deck (S + 3) 3 t s ht hs
    (dealCardStep deck (S + 2) 2 (dealCardStep deck (S + 1) 1 (dealCardStep deck (S + 0) 0 st)))
  have f4 := dealCardStep_count_frame deck (S + 4) 4 t s ht hs
    (dealCardStep deck (S + 3) 3 (dealCardStep deck (S + 2) 2
      (dealCardStep deck (S + 1) 1 (dealCardStep deck (S + 0) 0 st))))
  exact ⟨by rw [f4.1, f3.1, f2.1, f1.1, f0.1], by rw [f4.2, f3.2, f2.2, f1.2, f0.2]⟩

/-- Rank-frequency counting reads the table only at indices `2..14`. -/
theorem countRanks_congr (rc1 rc2 : Nat → Int)
    (h : ∀ t, 2 ≤ t → t ≤ 14 → rc1 t = rc2 t) (N : Int) :
    countRanksWithFrequency rc1 N = countRanksWithFrequency rc2 N := by
  unfold countRanksWithFrequency
  apply List.countP_congr
  intro r hr
  obtain ⟨h2, h14⟩ := mem_rankIndices.mp hr
  rw [h r h2 h14]

/-- The run scan reads the table only at the listed indices. -/
theorem straightRunScan_congr (rc1 rc2 : Nat → Int) :
    ∀ (l : List Nat), (∀ r ∈ l, rc1 r = rc2 r) → ∀ (runLength : Nat),
      straightRunScan rc1 l runLength = straightRunScan rc2 l runLength := by
  intro l
  induction l with
  | nil => intro _ runLength; rfl
  | cons r rs ih =>
    intro h runLength
    have hr := h r (List.mem_cons_self _ _)
    have hrs := fun x hx => h x (List.mem_cons_of_mem _ hx)
    show (if rc1 r == 1 then _ else _) = (if rc2 r == 1 then _ else _)
    rw [hr, ih hrs, ih hrs]

/-- Straight detection reads the table only at indices `2..14`. -/
theorem isStraight_congr (rc1 rc2 : Nat → Int)
    (h : ∀ t, 2 ≤ t → t ≤ 14 → rc1 t = rc2 t) :
    isStraight rc1 = isStraight rc2 := by
  unfold isStraight
  rw [countRanks_congr rc1 rc2 h 1,
    h 14 (by omega) (by omega), h 2 (by omega) (by omega), h 3 (by omega) (by omega),
    h 4 (by omega) (by omega), h 5 (by omega) (by omega),
    straightRunScan_congr rc1 rc2 rankIndices
      (fun r hr => h r (mem_rankIndices.mp hr).1 (mem_rankIndices.mp hr).2)]

/-- Hand classification reads the rank table only at indices `2..14`. -/
theorem handleHand_congr (rc1 rc2 sc : Nat → Int)
    (h : ∀ t, 2 ≤ t → t ≤ 14 → rc1 t = rc2 t) :
    handleHand rc1 sc = handleHand rc2 sc := by
  unfold handleHand isFourOfAKind isFullHouse isThreeOfAKind isTwoPair isOnePair
  rw [isStraight_congr rc1 rc2 h, countRanks_congr rc1 rc2 h 4, countRanks_congr rc1 rc2 h 3,
    countRanks_congr rc1 rc2 h 2]

/-- Consecutive integers `b, b+1, ..., b+n-1`, the shape of the rank index
list the run scan walks. -/
def consList (b n : Nat) : List Nat := (List.range n).map (fun i => i + b)

theorem consList_succ (b n : Nat) : consList b (n + 1) = b :: consList (b + 1) n := by
  unfold consList
  rw [List.range_succ_eq_map]
  simp only [List.map_cons, List.map_map, Nat.zero_add]
  refine congrArg (b :: ·) (List.map_congr_left ?_)
  intro i _
  show i + 1 + b = i + (b + 1)
  omega

theorem rankIndices_eq_consList : rankIndices = consList 2 13 := rfl

/-- Soundness of the run scan: a `true` verdict locates five consecutive
ranks of count one. The hypothesis records that the `runLength` ranks just
before `b` already have count one. -/
theorem runScan_sound (rc : Nat → Int) :
    ∀ (n b runLength : Nat), runLength ≤ b →
      (∀ t, b - runLength ≤ t → t < b → rc t = 1) →
      straightRunScan rc (consList b n) runLength = true →
      ∃ a, b - runLength ≤ a ∧ a + 5 ≤ b + n ∧ ∀ t, a ≤ t → t ≤ a + 4 → rc t = 1 := by
  intro n
  induction n with
  | zero =>
    intro b runLength _ _ hscan
    exact absurd hscan (by simp [consList, straightRunScan])
  | succ n ih =>
    intro b runLength hrb hprev hscan
    rw [consList_succ] at hscan
    by_cases h1 : rc b = 1
    · by_cases h5 : runLength + 1 = 5
      · refine ⟨b - 4, by omega, by omega, ?_⟩
        intro t ht1 ht2
        rcases Nat.lt_or_ge t b with hlt | hge
        · exact hprev t (by omega) hlt
        · have : t = b := by omega
          rw [this]; exact h1
      · have hscan' : straightRunScan rc (consList (b + 1) n) (runLength + 1) = true := by
          have h := hscan
          simp [straightRunScan, h1] at h
          rcases h with h | h
          · omega
          · exact h
        have hprev' : ∀ t, (b + 1) - (runLength + 1) ≤ t → t < b + 1 → rc t = 1 := by
          intro t ht1 ht2
          rcases Nat.lt_or_ge t b with hlt | hge
          · exact hprev t (by omega) hlt
          · have : t = b := by omega
            rw [this]; exact h1
        obtain ⟨a, ha1, ha2, ha3⟩ := ih (b + 1) (runLength + 1) (by omega) hprev' hscan'
        exact ⟨a, by omega, by omega, ha3⟩
    · have hscan' : straightRunScan rc (consList (b + 1) n) 0 = true := by
        simpa [straightRunScan, h1] using hscan
      obtain ⟨a, ha1, ha2, ha3⟩ := ih (b + 1) 0 (by omega) (by omega) hscan'
      exact ⟨a, by omega, by omega, ha3⟩

/-- Progress form of run-scan completeness: when the next `5 - runLength`
ranks all have count one, the scan answers `true`. -/
theorem runScan_fires (rc : Nat → Int) :
    ∀ (n b runLength : Nat), runLength ≤ 4 → 5 - runLength ≤ n →
      (∀ t, b ≤ t → t < b + (5 - runLength) → rc t = 1) →
      straightRunScan rc (consList b n) runLength = true := by
  intro n
  induction n with
  | zero => intro b runLength h4 h5 _; omega
  | succ n ih =>
    intro b runLength h4 h5 hones
    rw [consList_succ]
    have hb : rc b = 1 := hones b (by omega) (by omega)
    by_cases hr5 : runLength + 1 = 5
    · simp [straightRunScan, hb, hr5]
    · have : straightRunScan rc (consList (b + 1) n) (runLength + 1) = true := by
        apply ih (b + 1) (runLength + 1) (by omega) (by omega)
        intro t ht1 ht2
        exact hones t (by omega) (by omega)
      simp [straightRunScan, hb, hr5, this]

/-- Completeness of the run scan: five consecutive count-one ranks inside the
scanned window make the scan answer `true`, whatever `runLength ≤ 4` it
starts with. -/
theorem runScan_complete (rc : Nat → Int) :
    ∀ (n b runLength : Nat), runLength ≤ 4 →
      (∃ a, b ≤ a ∧ a + 5 ≤ b + n ∧ ∀ t, a ≤ t → t ≤ a + 4 → rc t = 1) →
      straightRunScan rc (consList b n) runLength = true := by
  intro n
  induction n with
  | zero =>
    intro b runLength _ ⟨a, ha1, ha2, _⟩
    omega
  | succ n ih =>
    intro b runLength h4 ⟨a, ha1, ha2, ha3⟩
    rcases Nat.eq_or_lt_of_le ha1 with rfl | hba
    · apply runScan_fires rc (n + 1) b runLength h4 (by omega)
      intro t ht1 ht2
      exact ha3 t ht1 (by omega)
    · rw [consList_succ]
      by_cases hb : rc b = 1
      · by_cases hr5 : runLength + 1 = 5
        · simp [straightRunScan, hb, hr5]
        · have : straightRunScan rc (consList (b + 1) n) (runLength + 1) = true :=
            ih (b + 1) (runLength + 1) (by omega) ⟨a, by omega, by omega, ha3⟩
          simp [straightRunScan, hb, hr5, this]
      · have : straightRunScan rc (consList (b + 1) n) 0 = true :=
          ih (b + 1) 0 (by omega) ⟨a, by omega, by omega, ha3⟩
        simp [straightRunScan, hb, this]

/-- A table with non-negative entries totals at least its number of
count-one entries. -/
theorem sum_ge_countP (rc : Nat → Int) :
    ∀ (l : List Nat), (∀ r ∈ l, 0 ≤ rc r) →
      ((l.countP (fun r => rc r == 1) : Int)) ≤ (l.map rc).sum := by
  intro l
  induction l with
  | nil => intro _; simp
  | cons a l ih =>
    intro hnn
    have ha := hnn a (List.mem_cons_self _ _)
    have ihl := ih (fun r hr => hnn r (List.mem_cons_of_mem _ hr))
    rw [List.countP_cons, List.map_cons, List.sum_cons]
    by_cases h1 : rc a = 1
    · simp only [h1]
      norm_num
      omega
    · have : (rc a == 1) = false := by simp [h1]
      simp only [this]
      norm_num
      omega

/-- Members of a duplicate-free list of satisfying elements are no more
numerous than the satisfaction count. -/
theorem countP_ge_of_nodup_subset {α : Type} [DecidableEq α] (P : α → Bool)
    (l s : List α) (hs : s.Nodup) (hsub : ∀ x ∈ s, x ∈ l ∧ P x = true) :
    s.length ≤ l.countP P := by
  rw [List.countP_eq_length_filter]
  apply List.Subperm.length_le
  apply List.subperm_of_subset hs
  intro x hx
  exact List.mem_filter.mpr (hsub x hx)

/-- With non-negative entries totalling 5 and exactly five count-one
entries, every other entry in `2..14` is zero. -/
theorem extra_rank_zero (rc : Nat → Int) (hnn : ∀ t, 2 ≤ t → t ≤ 14 → 0 ≤ rc t)
    (hsum : rankSum rc = 5) (hcnt : countRanksWithFrequency rc 1 = 5) :
    ∀ t, 2 ≤ t → t ≤ 14 → rc t ≠ 1 → rc t = 0 := by
  intro t h2 h14 hne
  by_contra h0
  have ht : t ∈ rankIndices := mem_rankIndices.mpr ⟨h2, h14⟩
  have hperm := List.perm_cons_erase ht
  have hsum' : rankSum rc = rc t + ((rankIndices.erase t).map rc).sum := by
    unfold rankSum
    rw [(hperm.map rc).sum_eq, List.map_cons, List.sum_cons]
  have hcnt' : (rankIndices.erase t).countP (fun r => rc r == 1) = 5 := by
    have := hperm.countP_eq (fun r => rc r == 1)
    rw [List.countP_cons] at this
    unfold countRanksWithFrequency at hcnt
    simp [hne] at this
    omega
  have hge : ((5 : Nat) : Int) ≤ ((rankIndices.erase t).map rc).sum := by
    rw [← hcnt']
    apply sum_ge_countP
    intro r hr
    have hr' := mem_rankIndices.mp (List.mem_of_mem_erase hr)
    exact hnn r hr'.1 hr'.2
  have htpos : 0 ≤ rc t := hnn t h2 h14
  have h2le : 2 ≤ rc t := by
    rcases Int.lt_or_lt_of_ne (fun h => h0 h.symm) with h | h
    · omega
    · rcases Int.lt_or_lt_of_ne hne with h' | h' <;> omega
  rw [hsum'] at hsum
  norm_num at hge
  omega

/-- Spec-side straight predicate on a rank table, following the spec's words:
the hand holds five distinct ranks forming either the wheel A-2-3-4-5 or five
consecutive values inside `2..14`. -/
def StraightTableSpec (rc : Nat → Int) : Prop :=
  (∀ t, 2 ≤ t → t ≤ 14 → rc t = 0 ∨ rc t = 1) ∧
  ((∀ t, 2 ≤ t → t ≤ 14 → (rc t = 1 ↔ (t = 14 ∨ t ≤ 5))) ∨
   (∃ a, 2 ≤ a ∧ a + 4 ≤ 14 ∧ ∀ t, 2 ≤ t → t ≤ 14 → (rc t = 1 ↔ (a ≤ t ∧ t ≤ a + 4))))

/-- Indicator table of the wheel ranks A-2-3-4-5. -/
def wheelTable : Nat → Int := fun t => if t = 14 ∨ (2 ≤ t ∧ t ≤ 5) then 1 else 0

/-- Indicator table of the five-rank run `a..a+4`. -/
def runTable (a : Nat) : Nat → Int := fun t => if a ≤ t ∧ t ≤ a + 4 then 1 else 0

/-- Characterization of `isStraight` on hand-shaped tables (non-negative
entries totalling 5): it answers `true` exactly on the spec's straights. -/
theorem isStraight_iff_spec (rc : Nat → Int)
    (hnn : ∀ t, 2 ≤ t → t ≤ 14 → 0 ≤ rc t) (hsum : rankSum rc = 5) :
    isStraight rc = true ↔ StraightTableSpec rc := by
  constructor
  · intro hs
    have hcnt : countRanksWithFrequency rc 1 = 5 := by
      by_contra h
      rw [isStraight, if_pos h] at hs
      exact Bool.false_ne_true hs
    rw [isStraight, if_neg (fun h => h hcnt)] at hs
    have h01 : ∀ t, 2 ≤ t → t ≤ 14 → rc t = 0 ∨ rc t = 1 := by
      intro t h2 h14
      rcases eq_or_ne (rc t) 1 with h | h
      · exact Or.inr h
      · exact Or.inl (extra_rank_zero rc hnn hsum hcnt t h2 h14 h)
    refine ⟨h01, ?_⟩
    by_cases hw : (rc 14 == 1 && rc 2 == 1 && rc 3 == 1 && rc 4 == 1 && rc 5 == 1) = true
    · simp only [Bool.and_eq_true, beq_iff_eq] at hw
      obtain ⟨⟨⟨⟨e14, e2⟩, e3⟩, e4⟩, e5⟩ := hw
      left
      intro t h2 h14
      constructor
      · intro h1t
        by_contra hcon
        push_neg at hcon
        obtain ⟨hne14, ht5⟩ := hcon
        have hlen : ([2, 3, 4, 5, 14, t] : List Nat).length ≤
            rankIndices.countP (fun r => rc r == 1) := by
          apply countP_ge_of_nodup_subset
          · simp
            omega
          · intro x hx
            simp only [List.mem_cons, List.not_mem_nil, or_false] at hx
            rcases hx with rfl | rfl | rfl | rfl | rfl | rfl
            · exact ⟨mem_rankIndices.mpr ⟨by omega, by omega⟩, by simp [e2]⟩
            · exact ⟨mem_rankIndices.mpr ⟨by omega, by omega⟩, by simp [e3]⟩
            · exact ⟨mem_rankIndices.mpr ⟨by omega, by omega⟩, by simp [e4]⟩
            · exact ⟨mem_rankIndices.mpr ⟨by omega, by omega⟩, by simp [e5]⟩
            · exact ⟨mem_rankIndices.mpr ⟨by omega, by omega⟩, by simp [e14]⟩
            · exact ⟨mem_rankIndices.mpr ⟨h2, h14⟩, by simp [h1t]⟩
        unfold countRanksWithFrequency at hcnt
        rw [hcnt] at hlen
        simp at hlen
      · intro h
        rcases h with rfl | h5
        · exact e14
        · interval_cases t
          · exact e2
          · exact e3
          · exact e4
          · exact e5
    · rw [if_neg hw] at hs
      rw [rankIndices_eq_consList] at hs
      obtain ⟨a, ha2, ha15, hones⟩ := runScan_sound rc 13 2 0 (by omega) (by omega) hs
      right
      refine ⟨a, by omega, by omega, ?_⟩
      intro t h2 h14
      constructor
      · intro h1t
        by_contra hcon
        push_neg at hcon
        have hlen : ([a, a + 1, a + 2, a + 3, a + 4, t] : List Nat).length ≤
            rankIndices.countP (fun r => rc r == 1) := by
          apply countP_ge_of_nodup_subset
          · simp
            omega
          · intro x hx
            simp only [List.mem_cons, List.not_mem_nil, or_false] at hx
            have hx' : (a ≤ x ∧ x ≤ a + 4) ∨ x = t := by
              rcases hx with h | h | h | h | h | h <;> omega
            rcases hx' with hrun | heq
            · refine ⟨mem_rankIndices.mpr ⟨by omega, by omega⟩, ?_⟩
              simp [hones x hrun.1 hrun.2]
            · refine ⟨mem_rankIndices.mpr (by omega), ?_⟩
              rw [heq]
              simp [h1t]
        unfold countRanksWithFrequency at hcnt
        rw [hcnt] at hlen
        simp at hlen
      · intro h
        exact hones t h.1 h.2
  · rintro ⟨h01, hcase | ⟨a, ha2, ha14, hiff⟩⟩
    · have hagree : ∀ t, 2 ≤ t → t ≤ 14 → rc t = wheelTable t := by
        intro t h2 h14
        rcases h01 t h2 h14 with h0 | h1
        · rw [h0, wheelTable]
          have : ¬(t = 14 ∨ (2 ≤ t ∧ t ≤ 5)) := by
            intro h
            have : rc t = 1 := (hcase t h2 h14).mpr (by omega)
            omega
          rw [if_neg this]
        · rw [h1, wheelTable]
          have := (hcase t h2 h14).mp h1
          rw [if_pos (by omega)]
      rw [isStraight_congr rc wheelTable hagree]
      decide
    · have hagree : ∀ t, 2 ≤ t → t ≤ 14 → rc t = runTable a t := by
        intro t h2 h14
        rcases h01 t h2 h14 with h0 | h1
        · rw [h0, runTable]
          have : ¬(a ≤ t ∧ t ≤ a + 4) := by
            intro h
            have : rc t = 1 := (hiff t h2 h14).mpr h
            omega
          rw [if_neg this]
        · rw [h1, runTable]
          exact (if_pos ((hiff t h2 h14).mp h1)).symm
      rw [isStraight_congr rc (runTable a) hagree]
      have ha10 : a ≤ 10 := by omega
      interval_cases a <;> decide

/-- One entry flipped from satisfying to non-satisfying lowers a count by one
on a duplicate-free list. -/
theorem countP_flip {α : Type} (P Q : α → Bool) :
    ∀ (l : List α), l.Nodup → ∀ a ∈ l, P a = true → Q a = false →
      (∀ b ∈ l, b ≠ a → P b = Q b) → l.countP P = l.countP Q + 1 := by
  intro l
  induction l with
  | nil => intro _ a ha; cases ha
  | cons x l ih =>
    intro hnd a ha hPa hQa hagree
    rw [List.nodup_cons] at hnd
    rw [List.countP_cons, List.countP_cons]
    rcases List.mem_cons.mp ha with rfl | hal
    · have hl : l.countP P = l.countP Q := by
        apply List.countP_congr
        intro b hb
        rw [hagree b (List.mem_cons_of_mem _ hb) (by rintro rfl; exact hnd.1 hb)]
      rw [hl, hPa, hQa]
      simp
    · have hx : P x = Q x :=
        hagree x (List.mem_cons_self _ _) (by rintro rfl; exact hnd.1 hal)
      rw [ih hnd.2 a hal hPa hQa
          (fun b hb hba => hagree b (List.mem_cons_of_mem _ hb) hba), hx]
      omega

/-- Invariant of the placement loop after the order numbers `1..k` have been
placed: all slots hold at most `k`, each placed value sits in exactly one
slot, and exactly `52 - k` slots are still empty. -/
def ShuffleInv (deck : Nat → Nat → Nat) (k : Nat) : Prop :=
  (∀ p q, p < 4 → q < 13 → deck p q ≤ k) ∧
  (∀ v, 1 ≤ v → v ≤ k → deckPairs.countP (fun pq => deck pq.1 pq.2 == v) = 1) ∧
  countEmpty deck = 52 - k

/-- Placing the next order number into an empty slot preserves the placement
invariant. -/
theorem shuffleInv_step (deck : Nat → Nat → Nat) (k : Nat) (hk : k < 52)
    (hinv : ShuffleInv deck k) (r c : Nat) (hr : r < 4) (hc : c < 13)
    (hrc : deck r c = 0) : ShuffleInv (updateDeck deck r c (k + 1)) (k + 1) := by
  obtain ⟨hbound, huniq, hemp⟩ := hinv
  refine ⟨?_, ?_, ?_⟩
  · intro p q hp hq
    unfold updateDeck
    by_cases h : p = r ∧ q = c
    · rw [if_pos h]
    · rw [if_neg h]
      exact Nat.le_trans (hbound p q hp hq) (Nat.le_succ k)
  · intro v h1 hk1
    rcases Nat.lt_or_ge v (k + 1) with hvk | hvk
    · have hagree : ∀ pq ∈ deckPairs,
          (updateDeck deck r c (k + 1) pq.1 pq.2 == v) =
          (deck pq.1 pq.2 == v) := by
        intro pq _
        simp only [updateDeck]
        by_cases h : pq.1 = r ∧ pq.2 = c
        · rw [if_pos h]
          have e : deck pq.1 pq.2 = 0 := by rw [h.1, h.2]; exact hrc
          rw [e]
          have l1 : (k + 1 == v) = false := by simp; omega
          have l2 : (0 == v) = false := by simp; omega
          rw [l1, l2]
        · rw [if_neg h]
      rw [List.countP_congr (fun x hx => by rw [hagree x hx])]
      exact huniq v h1 (by omega)
    · have hv : v = k + 1 := by omega
      subst hv
      apply countP_eq_one _ deckPairs deckPairs_nodup (r, c) (mem_deckPairs.mpr ⟨hr, hc⟩)
      · simp [updateDeck]
      · intro b hb hPb
        obtain ⟨hb1, hb2⟩ := mem_deckPairs.mp hb
        by_contra hne
        have h : ¬(b.1 = r ∧ b.2 = c) := by
          intro h
          apply hne
          cases b
          simp only at h
          rw [h.1, h.2]
        simp only [updateDeck, if_neg h, beq_iff_eq] at hPb
        have := hbound b.1 b.2 hb1 hb2
        omega
  · have hflip := countP_flip (fun pq : Nat × Nat => deck pq.1 pq.2 == 0)
      (fun pq : Nat × Nat => updateDeck deck r c (k + 1) pq.1 pq.2 == 0)
      deckPairs deckPairs_nodup (r, c) (mem_deckPairs.mpr ⟨hr, hc⟩)
      (by simp [hrc])
      (by simp [updateDeck])
      (by
        intro b _ hne
        have h : ¬(b.1 = r ∧ b.2 = c) := by
          intro h
          apply hne
          cases b
          simp only at h
          rw [h.1, h.2]
        simp only [updateDeck, if_neg h])
    unfold countEmpty at hemp ⊢
    omega

/-- Down the placement loop, the invariant is carried to `52` and no do-while
loop ever fails to exit. -/
theorem shuffleGo_inv (src : Nat → Nat) (hsrc : FairSource src) :
    ∀ (n i : Nat) (deck : Nat → Nat → Nat) (j0 : Nat), i + n = 53 → 1 ≤ i →
      ShuffleInv deck (i - 1) →
      ShuffleInv (shuffleGo src hsrc i deck j0).1 52 ∧
      (shuffleGo src hsrc i deck j0).2 = false := by
  intro n
  induction n with
  | zero =>
    intro i deck j0 hi h1 hinv
    have h53 : i = 53 := by omega
    subst h53
    rw [shuffleGo, dif_neg (by omega)]
    exact ⟨hinv, rfl⟩
  | succ n ih =>
    intro i deck j0 hi h1 hinv
    have h52 : i ≤ 52 := by omega
    have hemp : HasEmptySlot deck := by
      have hcnt := hinv.2.2
      have hpos : 0 < countEmpty deck := by omega
      unfold countEmpty at hpos
      rw [List.countP_pos_iff] at hpos
      obtain ⟨pq, hmem, hP⟩ := hpos
      obtain ⟨h1', h2'⟩ := mem_deckPairs.mp hmem
      exact ⟨pq.1, h1', pq.2, h2', by simpa using hP⟩
    rw [shuffleGo, dif_pos h52, dif_pos hemp]
    have hfind := (Nat.find_spec (exists_empty_draw src hsrc deck j0 hemp)).2
    have hrow : drawRow src (Nat.find (exists_empty_draw src hsrc deck j0 hemp)) < 4 :=
      Nat.mod_lt _ (by omega)
    have hcol : drawCol src (Nat.find (exists_empty_draw src hsrc deck j0 hemp)) < 13 :=
      Nat.mod_lt _ (by omega)
    have hstep := shuffleInv_step deck (i - 1) (by omega) hinv
      (drawRow src (Nat.find (exists_empty_draw src hsrc deck j0 hemp)))
      (drawCol src (Nat.find (exists_empty_draw src hsrc deck j0 hemp)))
      hrow hcol hfind
    have hi' : i - 1 + 1 = i := by omega
    rw [hi'] at hstep
    have := ih (i + 1)
      (updateDeck deck
        (drawRow src (Nat.find (exists_empty_draw src hsrc deck j0 hemp)))
        (drawCol src (Nat.find (exists_empty_draw src hsrc deck j0 hemp))) i)
      (Nat.find (exists_empty_draw src hsrc deck j0 hemp) + 1)
      (by omega) (by omega) (by simpa using hstep)
    exact this

/-- Statement of the shuffle contract: from any input deck and any fair
source, `shuffleDeck` builds a bijective deck and every do-while loop exits. -/
theorem shuffleDeck_ok (src : Nat → Nat) (hsrc : FairSource src)
    (deck0 : Nat → Nat → Nat) :
    DeckBijection (shuffleDeck src hsrc deck0).1 ∧
    (shuffleDeck src hsrc deck0).2 = false := by
  have hinit : ShuffleInv (fun p q => if p < 4 ∧ q < 13 then 0 else deck0 p q) 0 := by
    refine ⟨?_, ?_, ?_⟩
    · intro p q hp hq
      simp [hp, hq]
    · intro v h1 h0
      omega
    · unfold countEmpty
      have hall : ∀ pq ∈ deckPairs,
          ((fun p q => if p < 4 ∧ q < 13 then 0 else deck0 p q) pq.1 pq.2 == 0) = true := by
        intro pq hpq
        obtain ⟨h1', h2'⟩ := mem_deckPairs.mp hpq
        simp [h1', h2']
      rw [List.countP_eq_length.mpr hall]
      rfl
  have hmain := shuffleGo_inv src hsrc 52 1
    (fun p q => if p < 4 ∧ q < 13 then 0 else deck0 p q) 0 (by omega) (by omega)
    (by simpa using hinit)
  obtain ⟨⟨hbound, huniq, hemp⟩, hflag⟩ := hmain
  refine ⟨⟨?_, huniq⟩, hflag⟩
  intro p q hp hq
  refine ⟨?_, hbound p q hp hq⟩
  have hnz : ∀ pq ∈ deckPairs,
      ¬((fun pq : Nat × Nat => (shuffleDeck src hsrc deck0).1 pq.1 pq.2 == 0) pq = true) := by
    apply List.countP_eq_zero.mp
    have : countEmpty (shuffleDeck src hsrc deck0).1 = 0 := by
      have := hemp
      unfold shuffleDeck
      omega
    unfold countEmpty at this
    exact this
  have := hnz (p, q) (mem_deckPairs.mpr ⟨hp, hq⟩)
  simp only [beq_iff_eq] at this
  omega

/-- Concrete fair stream for witnesses: draw `j` yields row `j % 4` and
column `j % 13`, so any 52 consecutive draws cover the whole grid. -/
def cycleSrc : Nat → Nat :=
  fun n => if n % 2 = 0 then (n / 2) % 4 else (n / 2) % 13

theorem cycleSrc_fair : FairSource cycleSrc := by
  intro k r c hr hc
  refine ⟨13 * r + 40 * c + 52 * (k + 1), by omega, ?_, ?_⟩
  · show cycleSrc (2 * (13 * r + 40 * c + 52 * (k + 1))) % 4 = r
    unfold cycleSrc
    rw [if_pos (by omega)]
    omega
  · show cycleSrc (2 * (13 * r + 40 * c + 52 * (k + 1)) + 1) % 13 = c
    unfold cycleSrc
    rw [if_neg (by omega)]
    omega

/-- Concrete bijective deck for witnesses: slot `(p, q)` holds order
`13 * p + q + 1`. -/
def identityDeck : Nat → Nat → Nat :=
  fun p q => if p < 4 ∧ q < 13 then 13 * p + q + 1 else 0

theorem identityDeck_bij : DeckBijection identityDeck := by
  constructor
  · intro p q hp hq
    unfold identityDeck
    rw [if_pos ⟨hp, hq⟩]
    omega
  · intro v h1 h52
    apply countP_eq_one _ deckPairs deckPairs_nodup ((v - 1) / 13, (v - 1) % 13)
    · exact mem_deckPairs.mpr ⟨by omega, by omega⟩
    · simp only [beq_iff_eq, identityDeck]
      have hcond : (v - 1) / 13 < 4 ∧ (v - 1) % 13 < 13 := ⟨by omega, by omega⟩
      rw [if_pos hcond]
      omega
    · intro b hb hPb
      obtain ⟨hb1, hb2⟩ := mem_deckPairs.mp hb
      cases b with
      | mk b1 b2 =>
        simp only at hb1 hb2
        simp only [beq_iff_eq, identityDeck] at hPb
        have hcond : b1 < 4 ∧ b2 < 13 := ⟨hb1, hb2⟩
        rw [if_pos hcond] at hPb
        have e1 : b1 = (v - 1) / 13 := by omega
        have e2 : b2 = (v - 1) % 13 := by omega
        simp only [Prod.mk.injEq]
        exact ⟨e1, e2⟩

/-- All-zero output arrays, the state of the globals before the first deal. -/
def zeroState : DealState :=
  { outHandSuite := fun _ => 0
    outHandRank := fun _ => 0
    outRankCount := fun _ => 0
    outSuitCount := fun _ => 0 }

theorem writeCard_suite (st : DealState) (dealIdx p q : Nat) :
    (writeCard st dealIdx p q).outHandSuite = Function.update st.outHandSuite dealIdx p := rfl

theorem writeCard_rank (st : DealState) (dealIdx p q : Nat) :
    (writeCard st dealIdx p q).outHandRank =
      Function.update st.outHandRank dealIdx (rankValueFromFaceIndex q) := rfl

theorem writeCard_rcount (st : DealState) (dealIdx p q : Nat) :
    (writeCard st dealIdx p q).outRankCount =
      Function.update st.outRankCount (rankValueFromFaceIndex q)
        (st.outRankCount (rankValueFromFaceIndex q) + 1) := rfl

theorem writeCard_scount (st : DealState) (dealIdx p q : Nat) :
    (writeCard st dealIdx p q).outSuitCount =
      Function.update st.outSuitCount p (st.outSuitCount p + 1) := rfl

/-- Bumping a table entry, read anywhere: the old value plus an indicator. -/
theorem update_incr (f : Nat → Int) (r t : Nat) :
    Function.update f r (f r + 1) t = f t + (if r = t then 1 else 0) := by
  by_cases h : t = r
  · subst h
    rw [Function.update_same, if_pos rfl]
  · rw [Function.update_noteq h _ _, if_neg (fun h' => h h'.symm)]
    ring

/-- Functional correctness of the five-card deal over a bijective deck: card
`i` of the output is the slot of order `S + i` (so cards come in increasing
order of order value), and each frequency table ends at its prior contents
plus the occurrence counts over the five dealt cards. -/
theorem deal_spec (deck : Nat → Nat → Nat) (hbij : DeckBijection deck)
    (S : Nat) (hS1 : 1 ≤ S) (hS48 : S ≤ 48) (st0 : DealState) :
    (∀ i, i < 5 → ∀ p q, p < 4 → q < 13 → deck p q = S + i →
      (dealFiveCardHandFromOrderRange deck S st0).outHandSuite i = p ∧
      (dealFiveCardHandFromOrderRange deck S st0).outHandRank i = rankValueFromFaceIndex q) ∧
    (∀ t, (dealFiveCardHandFromOrderRange deck S st0).outRankCount t =
      st0.outRankCount t + ((List.range 5).map (fun i =>
        if (dealFiveCardHandFromOrderRange deck S st0).outHandRank i = t
        then (1 : Int) else 0)).sum) ∧
    (∀ s, (dealFiveCardHandFromOrderRange deck S st0).outSuitCount s =
      st0.outSuitCount s + ((List.range 5).map (fun i =>
        if (dealFiveCardHandFromOrderRange deck S st0).outHandSuite i = s
        then (1 : Int) else 0)).sum) := by
  obtain ⟨p0, q0, hp0, hq0, hv0, hu0⟩ := deckBijection_slot deck hbij (S + 0) (by omega) (by omega)
  obtain ⟨p1, q1, hp1, hq1, hv1, hu1⟩ := deckBijection_slot deck hbij (S + 1) (by omega) (by omega)
  obtain ⟨p2, q2, hp2, hq2, hv2, hu2⟩ := deckBijection_slot deck hbij (S + 2) (by omega) (by omega)
  obtain ⟨p3, q3, hp3, hq3, hv3, hu3⟩ := deckBijection_slot deck hbij (S + 3) (by omega) (by omega)
  obtain ⟨p4, q4, hp4, hq4, hv4, hu4⟩ := deckBijection_slot deck hbij (S + 4) (by omega) (by omega)
  have hdeal : dealFiveCardHandFromOrderRange deck S st0 =
      writeCard (writeCard (writeCard (writeCard (writeCard st0 0 p0 q0) 1 p1 q1)
        2 p2 q2) 3 p3 q3) 4 p4 q4 := by
    show (List.range 5).foldl
      (fun st dealIdx => dealCardStep deck (S + dealIdx) dealIdx st) st0 = _
    rw [show List.range 5 = [0, 1, 2, 3, 4] from rfl]
    simp only [List.foldl_cons, List.foldl_nil]
    rw [dealCardStep_eq_writeCard deck (S + 0) 0 p0 q0 hp0 hq0 hv0 hu0,
      dealCardStep_eq_writeCard deck (S + 1) 1 p1 q1 hp1 hq1 hv1 hu1,
      dealCardStep_eq_writeCard deck (S + 2) 2 p2 q2 hp2 hq2 hv2 hu2,
      dealCardStep_eq_writeCard deck (S + 3) 3 p3 q3 hp3 hq3 hv3 hu3,
      dealCardStep_eq_writeCard deck (S + 4) 4 p4 q4 hp4 hq4 hv4 hu4]
  have hS0 : (dealFiveCardHandFromOrderRange deck S st0).outHandSuite 0 = p0 := by
    rw [hdeal]
    simp only [writeCard_suite]
    rw [Function.update_noteq (by decide : (0 : Nat) ≠ 4) _ _,
      Function.update_noteq (by decide : (0 : Nat) ≠ 3) _ _,
      Function.update_noteq (by decide : (0 : Nat) ≠ 2) _ _,
      Function.update_noteq (by decide : (0 : Nat) ≠ 1) _ _, Function.update_same]
  have hS1' : (dealFiveCardHandFromOrderRange deck S st0).outHandSuite 1 = p1 := by
    rw [hdeal]
    simp only [writeCard_suite]
    rw [Function.update_noteq (by decide : (1 : Nat) ≠ 4) _ _,
      Function.update_noteq (by decide : (1 : Nat) ≠ 3) _ _,
      Function.update_noteq (by decide : (1 : Nat) ≠ 2) _ _, Function.update_same]
  have hS2 : (dealFiveCardHandFromOrderRange deck S st0).outHandSuite 2 = p2 := by
    rw [hdeal]
    simp only [writeCard_suite]
    rw [Function.update_noteq (by decide : (2 : Nat) ≠ 4) _ _,
      Function.update_noteq (by decide : (2 : Nat) ≠ 3) _ _, Function.update_same]
  have hS3 : (dealFiveCardHandFromOrderRange deck S st0).outHandSuite 3 = p3 := by
    rw [hdeal]
    simp only [writeCard_suite]
    rw [Function.update_noteq (by decide : (3 : Nat) ≠ 4) _ _, Function.update_same]
  have hS4 : (dealFiveCardHandFromOrderRange deck S st0).outHandSuite 4 = p4 := by
    rw [hdeal]
    simp only [writeCard_suite]
    rw [Function.update_same]
  have hR0 : (dealFiveCardHandFromOrderRange deck S st0).outHandRank 0 =
      rankValueFromFaceIndex q0 := by
    rw [hdeal]
    simp only [writeCard_rank]
    rw [Function.update_noteq (by decide : (0 : Nat) ≠ 4) _ _,
      Function.update_noteq (by decide : (0 : Nat) ≠ 3) _ _,
      Function.update_noteq (by decide : (0 : Nat) ≠ 2) _ _,
      Function.update_noteq (by decide : (0 : Nat) ≠ 1) _ _, Function.update_same]
  have hR1 : (dealFiveCardHandFromOrderRange deck S st0).outHandRank 1 =
      rankValueFromFaceIndex q1 := by
    rw [hdeal]
    simp only [writeCard_rank]
    rw [Function.update_noteq (by decide : (1 : Nat) ≠ 4) _ _,
      Function.update_noteq (by decide : (1 : Nat) ≠ 3) _ _,
      Function.update_noteq (by decide : (1 : Nat) ≠ 2) _ _, Function.update_same]
  have hR2 : (dealFiveCardHandFromOrderRange deck S st0).outHandRank 2 =
      rankValueFromFaceIndex q2 := by
    rw [hdeal]
    simp only [writeCard_rank]
    rw [Function.update_noteq (by decide : (2 : Nat) ≠ 4) _ _,
      Function.update_noteq (by decide : (2 : Nat) ≠ 3) _ _, Function.update_same]
  have hR3 : (dealFiveCardHandFromOrderRange deck S st0).outHandRank 3 =
      rankValueFromFaceIndex q3 := by
    rw [hdeal]
    simp only [writeCard_rank]
    rw [Function.update_noteq (by decide : (3 : Nat) ≠ 4) _ _, Function.update_same]
  have hR4 : (dealFiveCardHandFromOrderRange deck S st0).outHandRank 4 =
      rankValueFromFaceIndex q4 := by
    rw [hdeal]
    simp only [writeCard_rank]
    rw [Function.update_same]
  refine ⟨?_, ?_, ?_⟩
  · intro i hi p q hp hq hv
    interval_cases i
    · obtain ⟨e1, e2⟩ := hu0 p q hp hq hv
      rw [e1, e2]
      exact ⟨hS0, hR0⟩
    · obtain ⟨e1, e2⟩ := hu1 p q hp hq hv
      rw [e1, e2]
      exact ⟨hS1', hR1⟩
    · obtain ⟨e1, e2⟩ := hu2 p q hp hq hv
      rw [e1, e2]
      exact ⟨hS2, hR2⟩
    · obtain ⟨e1, e2⟩ := hu3 p q hp hq hv
      rw [e1, e2]
      exact ⟨hS3, hR3⟩
    · obtain ⟨e1, e2⟩ := hu4 p q hp hq hv
      rw [e1, e2]
      exact ⟨hS4, hR4⟩
  · intro t
    rw [show List.range 5 = [0, 1, 2, 3, 4] from rfl]
    simp only [List.map_cons, List.map_nil, List.sum_cons, List.sum_nil]
    rw [hR0, hR1, hR2, hR3, hR4, hdeal]
    simp only [writeCard_rcount]
    rw [update_incr, update_incr, update_incr, update_incr, update_incr]
    ring
  · intro s
    rw [show List.range 5 = [0, 1, 2, 3, 4] from rfl]
    simp only [List.map_cons, List.map_nil, List.sum_cons, List.sum_nil]
    rw [hS0, hS1', hS2, hS3, hS4, hdeal]
    simp only [writeCard_scount]
    rw [update_incr, update_incr, update_incr, update_incr, update_incr]
    ring

/-- Spec-side flush predicate: one suit count is 5. -/
def FlushSpec (sc : Nat → Int) : Prop := ∃ s, s < 4 ∧ sc s = 5

instance (sc : Nat → Int) : Decidable (FlushSpec sc) := by
  unfold FlushSpec; infer_instance

instance (rc : Nat → Int) : Decidable (StraightTableSpec rc) := by
  have h : ((∀ t, t < 15 → 2 ≤ t → rc t = 0 ∨ rc t = 1) ∧
      ((∀ t, t < 15 → 2 ≤ t → (rc t = 1 ↔ (t = 14 ∨ t ≤ 5))) ∨
       (∃ a, a < 11 ∧ 2 ≤ a ∧ ∀ t, t < 15 → 2 ≤ t → (rc t = 1 ↔ (a ≤ t ∧ t ≤ a + 4))))) ↔
      StraightTableSpec rc := by
    unfold StraightTableSpec
    constructor
    · rintro ⟨h1, h2⟩
      refine ⟨fun t h2t h14 => h1 t (by omega) h2t, ?_⟩
      rcases h2 with h | ⟨a, ha11, ha2, h⟩
      · exact Or.inl (fun t h2t h14 => h t (by omega) h2t)
      · exact Or.inr ⟨a, ha2, by omega, fun t h2t h14 => h t (by omega) h2t⟩
    · rintro ⟨h1, h2⟩
      refine ⟨fun t h15 h2t => h1 t h2t (by omega), ?_⟩
      rcases h2 with h | ⟨a, ha2, ha14, h⟩
      · exact Or.inl (fun t h15 h2t => h t h2t (by omega))
      · exact Or.inr ⟨a, by omega, ha2, fun t h15 h2t => h t h2t (by omega)⟩
  exact decidable_of_iff _ h

/-- Spec-side category ladder (section 4.3 of the spec), first match wins:
straight flush, four of a kind, full house, flush, straight, three of a
kind, two pair, one pair, high card. -/
def handleHandSpec (rc sc : Nat → Int) : Nat :=
  if StraightTableSpec rc ∧ FlushSpec sc then 1
  else if countRanksWithFrequency rc 4 = 1 then 2
  else if countRanksWithFrequency rc 3 = 1 ∧ countRanksWithFrequency rc 2 = 1 then 3
  else if FlushSpec sc then 4
  else if StraightTableSpec rc then 5
  else if countRanksWithFrequency rc 3 = 1 ∧ countRanksWithFrequency rc 2 = 0 then 6
  else if countRanksWithFrequency rc 2 = 2 then 7
  else if countRanksWithFrequency rc 2 = 1 then 8
  else 9

theorem isFlush_iff (sc : Nat → Int) : isFlush sc = true ↔ FlushSpec sc := by
  unfold isFlush FlushSpec
  rw [List.any_eq_true]
  constructor
  · rintro ⟨s, hs, hP⟩
    exact ⟨s, List.mem_range.mp hs, by simpa using hP⟩
  · rintro ⟨s, hs, hP⟩
    exact ⟨s, List.mem_range.mpr hs, by simpa using hP⟩

/-- Refinement of the classifier against the spec's ladder, on hand-shaped
rank tables. -/
theorem handleHand_eq_spec (rc sc : Nat → Int)
    (hnn : ∀ t, 2 ≤ t → t ≤ 14 → 0 ≤ rc t) (hsum : rankSum rc = 5) :
    handleHand rc sc = handleHandSpec rc sc := by
  have hst := isStraight_iff_spec rc hnn hsum
  have hfl := isFlush_iff sc
  unfold handleHand handleHandSpec isFourOfAKind isFullHouse isThreeOfAKind isTwoPair isOnePair
  simp only [Bool.and_eq_true, beq_iff_eq, hst, hfl]

/-- Rank multiset of counts `{3, 2}`: a full-house hand. -/
def FullHouseCounts (rc : Nat → Int) : Prop :=
  ∃ r s, 2 ≤ r ∧ r ≤ 14 ∧ 2 ≤ s ∧ s ≤ 14 ∧ r ≠ s ∧ rc r = 3 ∧ rc s = 2 ∧
    ∀ t, 2 ≤ t → t ≤ 14 → t ≠ r → t ≠ s → rc t = 0

/-- Rank multiset of counts `{4, 1}`: a four-of-a-kind hand. -/
def FourOfAKindCounts (rc : Nat → Int) : Prop :=
  ∃ r s, 2 ≤ r ∧ r ≤ 14 ∧ 2 ≤ s ∧ s ≤ 14 ∧ r ≠ s ∧ rc r = 4 ∧ rc s = 1 ∧
    ∀ t, 2 ≤ t → t ≤ 14 → t ≠ r → t ≠ s → rc t = 0

theorem handleHand_fullHouse (rc sc : Nat → Int) (h : FullHouseCounts rc) :
    handleHand rc sc = 3 := by
  obtain ⟨r, s, hr2, hr14, hs2, hs14, hrs, h3, h2, h0⟩ := h
  have hc1 : countRanksWithFrequency rc 1 = 0 := by
    unfold countRanksWithFrequency
    rw [List.countP_eq_zero]
    intro t ht
    obtain ⟨h2t, h14t⟩ := mem_rankIndices.mp ht
    simp only [beq_iff_eq]
    by_cases e1 : t = r
    · subst e1; omega
    · by_cases e2 : t = s
      · subst e2; omega
      · have := h0 t h2t h14t e1 e2; omega
  have hc4 : countRanksWithFrequency rc 4 = 0 := by
    unfold countRanksWithFrequency
    rw [List.countP_eq_zero]
    intro t ht
    obtain ⟨h2t, h14t⟩ := mem_rankIndices.mp ht
    simp only [beq_iff_eq]
    by_cases e1 : t = r
    · subst e1; omega
    · by_cases e2 : t = s
      · subst e2; omega
      · have := h0 t h2t h14t e1 e2; omega
  have hc3 : countRanksWithFrequency rc 3 = 1 := by
    apply countP_eq_one _ rankIndices rankIndices_nodup r (mem_rankIndices.mpr ⟨hr2, hr14⟩)
    · simp [h3]
    · intro b hb hPb
      obtain ⟨hb2, hb14⟩ := mem_rankIndices.mp hb
      simp only [beq_iff_eq] at hPb
      by_contra hne
      by_cases e2 : b = s
      · subst e2; omega
      · have := h0 b hb2 hb14 hne e2; omega
  have hc2 : countRanksWithFrequency rc 2 = 1 := by
    apply countP_eq_one _ rankIndices rankIndices_nodup s (mem_rankIndices.mpr ⟨hs2, hs14⟩)
    · simp [h2]
    · intro b hb hPb
      obtain ⟨hb2, hb14⟩ := mem_rankIndices.mp hb
      simp only [beq_iff_eq] at hPb
      by_contra hne
      by_cases e1 : b = r
      · subst e1; omega
      · have := h0 b hb2 hb14 e1 hne; omega
  have hstr : isStraight rc = false := by
    unfold isStraight
    rw [if_pos (by omega)]
  unfold handleHand isFourOfAKind isFullHouse
  rw [hstr, hc4, hc3, hc2]
  simp

theorem handleHand_quads (rc sc : Nat → Int) (h : FourOfAKindCounts rc) :
    handleHand rc sc = 2 := by
  obtain ⟨r, s, hr2, hr14, hs2, hs14, hrs, h4, h1, h0⟩ := h
  have hc1 : countRanksWithFrequency rc 1 = 1 := by
    apply countP_eq_one _ rankIndices rankIndices_nodup s (mem_rankIndices.mpr ⟨hs2, hs14⟩)
    · simp [h1]
    · intro b hb hPb
      obtain ⟨hb2, hb14⟩ := mem_rankIndices.mp hb
      simp only [beq_iff_eq] at hPb
      by_contra hne
      by_cases e1 : b = r
      · subst e1; omega
      · have := h0 b hb2 hb14 e1 hne; omega
  have hc4 : countRanksWithFrequency rc 4 = 1 := by
    apply countP_eq_one _ rankIndices rankIndices_nodup r (mem_rankIndices.mpr ⟨hr2, hr14⟩)
    · simp [h4]
    · intro b hb hPb
      obtain ⟨hb2, hb14⟩ := mem_rankIndices.mp hb
      simp only [beq_iff_eq] at hPb
      by_contra hne
      by_cases e2 : b = s
      · subst e2; omega
      · have := h0 b hb2 hb14 hne e2; omega
  have hstr : isStraight rc = false := by
    unfold isStraight
    rw [if_pos (by omega)]
  unfold handleHand isFourOfAKind
  rw [hstr, hc4]
  simp

/-- Range of the classifier: the priority is always one of `1..9`. -/
theorem handleHand_range (rc sc : Nat → Int) :
    1 ≤ handleHand rc sc ∧ handleHand rc sc ≤ 9 := by
  unfold handleHand
  split_ifs <;> omega

theorem dealCardStep_suite_frame (deck : Nat → Nat → Nat) (v dealIdx i : Nat)
    (hi : i ≠ dealIdx) :
    ∀ st : DealState, (dealCardStep deck v dealIdx st).outHandSuite i = st.outHandSuite i :=
  fun st => (dealCardStep_hand_frame deck v dealIdx i hi st).1

theorem dealCardStep_rank_frame (deck : Nat → Nat → Nat) (v dealIdx i : Nat)
    (hi : i ≠ dealIdx) :
    ∀ st : DealState, (dealCardStep deck v dealIdx st).outHandRank i = st.outHandRank i :=
  fun st => (dealCardStep_hand_frame deck v dealIdx i hi st).2

/-- Concrete count tables used by the witnesses. -/
def zeroTable : Nat → Int := fun _ => 0

/-- Rank table of a full house: three eights, two nines. -/
def fullHouseTable : Nat → Int := fun t => if t = 8 then 3 else if t = 9 then 2 else 0

/-- Rank table of the spec's four-of-a-kind scenario: four twos, one five. -/
def quadTable : Nat → Int := fun t => if t = 2 then 4 else if t = 5 then 1 else 0

/-- C1: after `shuffleDeck` terminates, the 52 slots of the 4×13 deck hold
exactly the multiset `{1, ..., 52}`: every order value in `1..52` appears in
exactly one `(suit, face)` slot, and no slot holds any other value (each slot
holds a value in `1..52`). -/
theorem spec_claim_C1 (src : Nat → Nat) (hsrc : FairSource src)
    (deck0 : Nat → Nat → Nat) :
    (∀ v, 1 ≤ v → v ≤ 52 →
      deckPairs.countP (fun pq => (shuffleDeck src hsrc deck0).1 pq.1 pq.2 == v) = 1) ∧
    (∀ p q, p < 4 → q < 13 →
      1 ≤ (shuffleDeck src hsrc deck0).1 p q ∧ (shuffleDeck src hsrc deck0).1 p q ≤ 52) := by
  obtain ⟨⟨hrange, hcount⟩, _⟩ := shuffleDeck_ok src hsrc deck0
  exact ⟨hcount, hrange⟩

theorem spec_claim_C1_witness :
    FairSource cycleSrc ∧
    ((∀ v, 1 ≤ v → v ≤ 52 →
      deckPairs.countP
        (fun pq => (shuffleDeck cycleSrc cycleSrc_fair (fun _ _ => 0)).1 pq.1 pq.2 == v) = 1) ∧
     (∀ p q, p < 4 → q < 13 →
      1 ≤ (shuffleDeck cycleSrc cycleSrc_fair (fun _ _ => 0)).1 p q ∧
        (shuffleDeck cycleSrc cycleSrc_fair (fun _ _ => 0)).1 p q ≤ 52)) :=
  ⟨cycleSrc_fair, spec_claim_C1 cycleSrc cycleSrc_fair (fun _ _ => 0)⟩

/-- C2: for every pair of frequency tables the classifier returns a value in
`1..9`; on hand-shaped tables it follows the spec's first-match-wins
category ladder; a hand with rank counts `{3, 2}` classifies as 3 and one
with counts `{4, 1}` classifies as 2, both whatever the suit table says. -/
theorem spec_claim_C2 :
    (∀ rc sc : Nat → Int, 1 ≤ handleHand rc sc ∧ handleHand rc sc ≤ 9) ∧
    (∀ rc sc : Nat → Int, (∀ t, 2 ≤ t → t ≤ 14 → 0 ≤ rc t) → rankSum rc = 5 →
      handleHand rc sc = handleHandSpec rc sc) ∧
    (∀ rc sc : Nat → Int, FullHouseCounts rc → handleHand rc sc = 3) ∧
    (∀ rc sc : Nat → Int, FourOfAKindCounts rc → handleHand rc sc = 2) :=
  ⟨handleHand_range, fun rc sc hnn hsum => handleHand_eq_spec rc sc hnn hsum,
   handleHand_fullHouse, handleHand_quads⟩

theorem spec_claim_C2_witness :
    ((∀ t, 2 ≤ t → t ≤ 14 → 0 ≤ fullHouseTable t) ∧ rankSum fullHouseTable = 5 ∧
      handleHand fullHouseTable zeroTable = handleHandSpec fullHouseTable zeroTable) ∧
    (FullHouseCounts fullHouseTable ∧ handleHand fullHouseTable zeroTable = 3) ∧
    (FourOfAKindCounts quadTable ∧ handleHand quadTable zeroTable = 2) := by
  have hnn : ∀ t, 2 ≤ t → t ≤ 14 → 0 ≤ fullHouseTable t := by
    intro t h1 h2
    unfold fullHouseTable
    split_ifs <;> decide
  have hfh : FullHouseCounts fullHouseTable := by
    refine ⟨8, 9, by omega, by omega, by omega, by omega, by omega, by decide, by decide, ?_⟩
    intro t h1 h2 h8 h9
    unfold fullHouseTable
    rw [if_neg h8, if_neg h9]
  have hq : FourOfAKindCounts quadTable := by
    refine ⟨2, 5, by omega, by omega, by omega, by omega, by omega, by decide, by decide, ?_⟩
    intro t h1 h2 hr2 hr5
    unfold quadTable
    rw [if_neg hr2, if_neg hr5]
  exact ⟨⟨hnn, by decide, spec_claim_C2.2.1 fullHouseTable zeroTable hnn (by decide)⟩,
    ⟨hfh, spec_claim_C2.2.2.1 fullHouseTable zeroTable hfh⟩,
    ⟨hq, spec_claim_C2.2.2.2 quadTable zeroTable hq⟩⟩

/-- C3: on a hand-shaped rank table, `isStraight` answers `true` exactly when
the hand holds five distinct ranks forming the wheel or five consecutive
values in `2..14`; in particular the wheel table passes and the table of
ranks `{2, 3, 4, 5, 7}` fails. -/
theorem spec_claim_C3 :
    (∀ rc : Nat → Int, (∀ t, 2 ≤ t → t ≤ 14 → 0 ≤ rc t) → rankSum rc = 5 →
      (isStraight rc = true ↔ StraightTableSpec rc)) ∧
    isStraight wheelTable = true ∧
    isStraight (fun t => if (2 ≤ t ∧ t ≤ 5) ∨ t = 7 then 1 else 0) = false :=
  ⟨isStraight_iff_spec, by decide, by decide⟩

theorem spec_claim_C3_witness :
    (∀ t, 2 ≤ t → t ≤ 14 → 0 ≤ wheelTable t) ∧ rankSum wheelTable = 5 ∧
    (isStraight wheelTable = true ↔ StraightTableSpec wheelTable) := by
  have hnn : ∀ t, 2 ≤ t → t ≤ 14 → 0 ≤ wheelTable t := by
    intro t h1 h2
    unfold wheelTable
    split_ifs <;> decide
  exact ⟨hnn, by decide, spec_claim_C3.1 wheelTable hnn (by decide)⟩

/-- C4: for every bijective deck and start order `S` in `1..48`, after
clearing the count arrays and dealing, the rank table's entries over `2..14`
sum to 5 and the suit table's entries over `0..3` sum to 5. -/
theorem spec_claim_C4 (deck : Nat → Nat → Nat) (hbij : DeckBijection deck)
    (S : Nat) (hS1 : 1 ≤ S) (hS48 : S ≤ 48) (rc sc : Nat → Int) (hs hr : Nat → Nat) :
    rankSum (dealFiveCardHandFromOrderRange deck S
      { outHandSuite := hs
        outHandRank := hr
        outRankCount := (clearCountArrays rc sc).1
        outSuitCount := (clearCountArrays rc sc).2 }).outRankCount = 5 ∧
    suitSum (dealFiveCardHandFromOrderRange deck S
      { outHandSuite := hs
        outHandRank := hr
        outRankCount := (clearCountArrays rc sc).1
        outSuitCount := (clearCountArrays rc sc).2 }).outSuitCount = 5 := by
  have hc := cleared_sums rc sc
  have hd := deal_sums deck hbij S hS1 hS48
    { outHandSuite := hs
      outHandRank := hr
      outRankCount := (clearCountArrays rc sc).1
      outSuitCount := (clearCountArrays rc sc).2 }
  constructor
  · rw [hd.1]
    show rankSum (clearCountArrays rc sc).1 + 5 = 5
    rw [hc.1]
    norm_num
  · rw [hd.2]
    show suitSum (clearCountArrays rc sc).2 + 5 = 5
    rw [hc.2]
    norm_num

theorem spec_claim_C4_witness :
    DeckBijection identityDeck ∧ (1 : Nat) ≤ 1 ∧ (1 : Nat) ≤ 48 ∧
    (rankSum (dealFiveCardHandFromOrderRange identityDeck 1
      { outHandSuite := fun _ => 0
        outHandRank := fun _ => 0
        outRankCount := (clearCountArrays zeroTable zeroTable).1
        outSuitCount := (clearCountArrays zeroTable zeroTable).2 }).outRankCount = 5 ∧
     suitSum (dealFiveCardHandFromOrderRange identityDeck 1
      { outHandSuite := fun _ => 0
        outHandRank := fun _ => 0
        outRankCount := (clearCountArrays zeroTable zeroTable).1
        outSuitCount := (clearCountArrays zeroTable zeroTable).2 }).outSuitCount = 5) :=
  ⟨identityDeck_bij, le_refl 1, by omega,
    spec_claim_C4 identityDeck identityDeck_bij 1 (le_refl 1) (by omega)
      zeroTable zeroTable (fun _ => 0) (fun _ => 0)⟩

/-- C5 (amended): over a bijective deck and a start order `S` in `1..48`, the
deal writes into hand position `i` exactly the suit and derived rank of the
slot holding order `S + i` — the five cards in increasing order of order
value, whatever the output arrays held before — and each frequency table
ends at its prior contents plus the occurrence counts over the five emitted
cards (so equal to the pure occurrence counts when the tables start zeroed). -/
theorem spec_claim_C5 (deck : Nat → Nat → Nat) (hbij : DeckBijection deck)
    (S : Nat) (hS1 : 1 ≤ S) (hS48 : S ≤ 48) (st0 : DealState) :
    (∀ i, i < 5 → ∀ p q, p < 4 → q < 13 → deck p q = S + i →
      (dealFiveCardHandFromOrderRange deck S st0).outHandSuite i = p ∧
      (dealFiveCardHandFromOrderRange deck S st0).outHandRank i = rankValueFromFaceIndex q) ∧
    (∀ t, (dealFiveCardHandFromOrderRange deck S st0).outRankCount t =
      st0.outRankCount t + ((List.range 5).map (fun i =>
        if (dealFiveCardHandFromOrderRange deck S st0).outHandRank i = t
        then (1 : Int) else 0)).sum) ∧
    (∀ s, (dealFiveCardHandFromOrderRange deck S st0).outSuitCount s =
      st0.outSuitCount s + ((List.range 5).map (fun i =>
        if (dealFiveCardHandFromOrderRange deck S st0).outHandSuite i = s
        then (1 : Int) else 0)).sum) :=
  deal_spec deck hbij S hS1 hS48 st0

/-- Output arrays whose rank table is not all zero before the call. -/
def dirtyState : DealState :=
  { outHandSuite := fun _ => 0
    outHandRank := fun _ => 0
    outRankCount := fun t => if t = 2 then 1 else 0
    outSuitCount := fun _ => 0 }

/-- Refutation of C5 as stated: with a nonzero prior rank table the emitted
rank table is not the pure occurrence count of the five cards — slot 2 ends
at 2 although exactly one of the five cards has rank 2. -/
theorem spec_claim_C5_counterexample :
    (dealFiveCardHandFromOrderRange identityDeck 1 dirtyState).outRankCount 2 = 2 ∧
    ((List.range 5).map (fun i =>
      if (dealFiveCardHandFromOrderRange identityDeck 1 dirtyState).outHandRank i = 2
      then (1 : Int) else 0)).sum = 1 ∧
    (2 : Int) ≠ 1 := by
  refine ⟨by decide, by decide, by decide⟩

theorem spec_claim_C5_witness :
    DeckBijection identityDeck ∧
    (∀ p q, p < 4 → q < 13 → identityDeck p q = 1 + 0 →
      (dealFiveCardHandFromOrderRange identityDeck 1 zeroState).outHandSuite 0 = p ∧
      (dealFiveCardHandFromOrderRange identityDeck 1 zeroState).outHandRank 0 =
        rankValueFromFaceIndex q) :=
  ⟨identityDeck_bij,
    (spec_claim_C5 identityDeck identityDeck_bij 1 (le_refl 1) (by omega) zeroState).1
      0 (by omega)⟩

/-- C6: the royal-flush tables (ranks `10..14` once each, all of suit 3)
classify as category 1, numerically strictly stronger than category 2. -/
theorem spec_claim_C6 :
    handleHand (fun r => if 10 ≤ r ∧ r ≤ 14 then 1 else 0)
      (fun s => if s = 3 then 5 else 0) = 1 ∧
    handleHand (fun r => if 10 ≤ r ∧ r ≤ 14 then 1 else 0)
      (fun s => if s = 3 then 5 else 0) < 2 :=
  ⟨by decide, by decide⟩

/-- C7: the rank derivation maps face 0 to 14 and faces `1..12` to `2..13`,
always landing in `2..14`; consequently a deal never touches rank-count
indices outside `2..14` or suit-count indices outside `0..3`, so the
out-of-range case cannot arise. -/
theorem spec_claim_C7 :
    (∀ q, q < 13 → (q = 0 → rankValueFromFaceIndex q = 14) ∧
      (1 ≤ q → rankValueFromFaceIndex q = q + 1) ∧
      2 ≤ rankValueFromFaceIndex q ∧ rankValueFromFaceIndex q ≤ 14) ∧
    (∀ (deck : Nat → Nat → Nat) (S : Nat) (st0 : DealState) (t : Nat), t < 2 ∨ 14 < t →
      (dealFiveCardHandFromOrderRange deck S st0).outRankCount t = st0.outRankCount t) ∧
    (∀ (deck : Nat → Nat → Nat) (S : Nat) (st0 : DealState) (s : Nat), 3 < s →
      (dealFiveCardHandFromOrderRange deck S st0).outSuitCount s = st0.outSuitCount s) := by
  refine ⟨?_, ?_, ?_⟩
  · intro q hq
    refine ⟨fun h0 => by rw [rankValueFromFaceIndex, if_pos h0],
      fun h1 => by rw [rankValueFromFaceIndex, if_neg (by omega)],
      (rankValue_range hq).1, (rankValue_range hq).2⟩
  · intro deck S st0 t ht
    exact (deal_count_frame deck S t 4 ht (by omega) st0).1
  · intro deck S st0 s hs
    exact (deal_count_frame deck S 0 s (Or.inl (by omega)) hs st0).2

theorem spec_claim_C7_witness :
    ((0 : Nat) = 0 → rankValueFromFaceIndex 0 = 14) ∧
    ((1 : Nat) ≤ 5 → rankValueFromFaceIndex 5 = 6) ∧
    (dealFiveCardHandFromOrderRange identityDeck 1 zeroState).outRankCount 0 =
      zeroState.outRankCount 0 ∧
    (dealFiveCardHandFromOrderRange identityDeck 1 zeroState).outSuitCount 7 =
      zeroState.outSuitCount 7 :=
  ⟨(spec_claim_C7.1 0 (by omega)).1, (spec_claim_C7.1 5 (by omega)).2.1,
    spec_claim_C7.2.1 identityDeck 1 zeroState 0 (Or.inl (by omega)),
    spec_claim_C7.2.2 identityDeck 1 zeroState 7 (by omega)⟩

/-- C8: against a fair random source the rejection-sampling loop always has
an exit point — from any deck with an empty slot and any stream position, a
draw hitting an empty slot occurs — and a full run of `shuffleDeck` never
ends with a do-while loop that failed to exit. -/
theorem spec_claim_C8 (src : Nat → Nat) (hsrc : FairSource src) :
    (∀ (deck : Nat → Nat → Nat) (j0 : Nat), HasEmptySlot deck →
      ∃ j, j0 ≤ j ∧ deck (drawRow src j) (drawCol src j) = 0) ∧
    (∀ deck0 : Nat → Nat → Nat, (shuffleDeck src hsrc deck0).2 = false) :=
  ⟨fun deck j0 hemp => exists_empty_draw src hsrc deck j0 hemp,
    fun deck0 => (shuffleDeck_ok src hsrc deck0).2⟩

theorem spec_claim_C8_witness :
    FairSource cycleSrc ∧
    ((∀ (deck : Nat → Nat → Nat) (j0 : Nat), HasEmptySlot deck →
      ∃ j, j0 ≤ j ∧ deck (drawRow cycleSrc j) (drawCol cycleSrc j) = 0) ∧
     (∀ deck0 : Nat → Nat → Nat, (shuffleDeck cycleSrc cycleSrc_fair deck0).2 = false)) :=
  ⟨cycleSrc_fair, spec_claim_C8 cycleSrc cycleSrc_fair⟩

/-- C9: classification ignores the unused rank indices — two rank tables
agreeing on `2..14` classify identically against any suit table. -/
theorem spec_claim_C9 (rc1 rc2 sc : Nat → Int)
    (h : ∀ t, 2 ≤ t → t ≤ 14 → rc1 t = rc2 t) :
    handleHand rc1 sc = handleHand rc2 sc :=
  handleHand_congr rc1 rc2 sc h

theorem spec_claim_C9_witness :
    (∀ t, 2 ≤ t → t ≤ 14 →
      wheelTable t = (fun t => if t < 2 then (99 : Int) else wheelTable t) t) ∧
    handleHand wheelTable zeroTable =
      handleHand (fun t => if t < 2 then (99 : Int) else wheelTable t) zeroTable := by
  have h : ∀ t, 2 ≤ t → t ≤ 14 →
      wheelTable t = (fun t => if t < 2 then (99 : Int) else wheelTable t) t := by
    intro t h1 h2
    show wheelTable t = if t < 2 then (99 : Int) else wheelTable t
    rw [if_neg (by omega)]
  exact ⟨h, spec_claim_C9 wheelTable (fun t => if t < 2 then (99 : Int) else wheelTable t)
    zeroTable h⟩

/-- C10: a deal never signals an error whatever the deck holds — a scan for
an order value present in no slot writes nothing at all, and in a full deal
the hand entry of such a missing order value keeps its prior contents. -/
theorem spec_claim_C10 :
    (∀ (deck : Nat → Nat → Nat) (v dealIdx : Nat) (st : DealState),
      (∀ p q, p < 4 → q < 13 → deck p q ≠ v) → dealCardStep deck v dealIdx st = st) ∧
    (∀ (deck : Nat → Nat → Nat) (S : Nat) (st0 : DealState) (i : Nat), i < 5 →
      (∀ p q, p < 4 → q < 13 → deck p q ≠ S + i) →
      (dealFiveCardHandFromOrderRange deck S st0).outHandSuite i = st0.outHandSuite i ∧
      (dealFiveCardHandFromOrderRange deck S st0).outHandRank i = st0.outHandRank i) := by
  constructor
  · intro deck v dealIdx st hnone
    exact dealCardStep_eq_self deck v dealIdx hnone st
  · intro deck S st0 i hi hnone
    have hid := dealCardStep_eq_self deck (S + i) i hnone
    show ((List.range 5).foldl
      (fun st dealIdx => dealCardStep deck (S + dealIdx) dealIdx st) st0).outHandSuite i =
        st0.outHandSuite i ∧
      ((List.range 5).foldl
        (fun st dealIdx => dealCardStep deck (S + dealIdx) dealIdx st) st0).outHandRank i =
        st0.outHandRank i
    rw [show List.range 5 = [0, 1, 2, 3, 4] from rfl]
    simp only [List.foldl_cons, List.foldl_nil]
    interval_cases i
    · constructor
      · rw [dealCardStep_suite_frame deck (S + 4) 4 0 (by omega),
          dealCardStep_suite_frame deck (S + 3) 3 0 (by omega),
          dealCardStep_suite_frame deck (S + 2) 2 0 (by omega),
          dealCardStep_suite_frame deck (S + 1) 1 0 (by omega), hid]
      · rw [dealCardStep_rank_frame deck (S + 4) 4 0 (by omega),
          dealCardStep_rank_frame deck (S + 3) 3 0 (by omega),
          dealCardStep_rank_frame deck (S + 2) 2 0 (by omega),
          dealCardStep_rank_frame deck (S + 1) 1 0 (by omega), hid]
    · constructor
      · rw [dealCardStep_suite_frame deck (S + 4) 4 1 (by omega),
          dealCardStep_suite_frame deck (S + 3) 3 1 (by omega),
          dealCardStep_suite_frame deck (S + 2) 2 1 (by omega), hid,
          dealCardStep_suite_frame deck (S + 0) 0 1 (by omega)]
      · rw [dealCardStep_rank_frame deck (S + 4) 4 1 (by omega),
          dealCardStep_rank_frame deck (S + 3) 3 1 (by omega),
          dealCardStep_rank_frame deck (S + 2) 2 1 (by omega), hid,
          dealCardStep_rank_frame deck (S + 0) 0 1 (by omega)]
    · constructor
      · rw [dealCardStep_suite_frame deck (S + 4) 4 2 (by omega),
          dealCardStep_suite_frame deck (S + 3) 3 2 (by omega), hid,
          dealCardStep_suite_frame deck (S + 1) 1 2 (by omega),
          dealCardStep_suite_frame deck (S + 0) 0 2 (by omega)]
      · rw [dealCardStep_rank_frame deck (S + 4) 4 2 (by omega),
          dealCardStep_rank_frame deck (S + 3) 3 2 (by omega), hid,
          dealCardStep_rank_frame deck (S + 1) 1 2 (by omega),
          dealCardStep_rank_frame deck (S + 0) 0 2 (by omega)]
    · constructor
      · rw [dealCardStep_suite_frame deck (S + 4) 4 3 (by omega), hid,
          dealCardStep_suite_frame deck (S + 2) 2 3 (by omega),
          dealCardStep_suite_frame deck (S + 1) 1 3 (by omega),
          dealCardStep_suite_frame deck (S + 0) 0 3 (by omega)]
      · rw [dealCardStep_rank_frame deck (S + 4) 4 3 (by omega), hid,
          dealCardStep_rank_frame deck (S + 2) 2 3 (by omega),
          dealCardStep_rank_frame deck (S + 1) 1 3 (by omega),
          dealCardStep_rank_frame deck (S + 0) 0 3 (by omega)]
    · constructor
      · rw [hid, dealCardStep_suite_frame deck (S + 3) 3 4 (by omega),
          dealCardStep_suite_frame deck (S + 2) 2 4 (by omega),
          dealCardStep_suite_frame deck (S + 1) 1 4 (by omega),
          dealCardStep_suite_frame deck (S + 0) 0 4 (by omega)]
      · rw [hid, dealCardStep_rank_frame deck (S + 3) 3 4 (by omega),
          dealCardStep_rank_frame deck (S + 2) 2 4 (by omega),
          dealCardStep_rank_frame deck (S + 1) 1 4 (by omega),
          dealCardStep_rank_frame deck (S + 0) 0 4 (by omega)]

theorem spec_claim_C10_witness :
    dealCardStep (fun _ _ => 0) 7 0 zeroState = zeroState ∧
    (dealFiveCardHandFromOrderRange (fun _ _ => 0) 7 zeroState).outHandSuite 0 =
      zeroState.outHandSuite 0 ∧
    (dealFiveCardHandFromOrderRange (fun _ _ => 0) 7 zeroState).outHandRank 0 =
      zeroState.outHandRank 0 :=
  ⟨spec_claim_C10.1 (fun _ _ => 0) 7 0 zeroState (fun _ _ _ _ => by simp),
    (spec_claim_C10.2 (fun _ _ => 0) 7 zeroState 0 (by omega)
      (fun _ _ _ _ => by simp)).1,
    (spec_claim_C10.2 (fun _ _ => 0) 7 zeroState 0 (by omega)
      (fun _ _ _ _ => by simp)).2⟩
